import Mathlib

/-!
Verification of the Bulletpoints outline-editor mutation engine.

This file is a shallow embedding of the document-tree mutation engine of the
Bulletpoints application: the item store and structural query helpers
(src/utils.ts, src/types.ts), the reducer implementing every structural
action together with the history (undo/redo) wrapper around it
(src/hooks/useBulletpoints.tsx), and the plain-text exporter
(src/utils.ts, exportToText).

Modelling conventions:
* A JavaScript object used as a string-keyed map becomes an association
  list in insertion order; property update rewrites the entry in place,
  property creation appends, and delete removes, matching JS object
  key-order semantics for the opaque string keys this program uses.
* A JS runtime exception (member access on undefined) is modelled by
  Except.error; every code path that cannot throw returns Except.ok.
* isAncestor and the recursive delete in the source traverse via an
  explicit stack or recursion and would diverge on a cyclic store; the
  embedding carries a visited list (respectively deletes entries as it
  goes), which terminates on every input and computes the same result
  whenever the source terminates.
* Reference equality between the input state object and the result object,
  used by the history wrapper, is modelled by value equality: the reducer
  returns the input object exactly on its no-op paths.
-/

namespace Bulletpoints

/-- One outline node, following the Item interface of src/types.ts. The
fontSize field is absent on items created before the field existed, so it
is modelled with Option. -/
structure Item where
  id : String
  text : String
  children : List String
  isCompleted : Bool
  collapsed : Bool
  fontSize : Option String := none
  deriving Repr, DecidableEq

/-- A JS object mapping item ids to items, kept in key insertion order. -/
abbrev ItemMap := List (String × Item)

/-- Property read of a JS object: the first entry with the given key. -/
def mget (m : ItemMap) (k : String) : Option Item :=
  (m.find? (fun p => p.1 == k)).map (fun p => p.2)

/-- Property write of a JS object: rewrite in place when the key exists,
append otherwise. -/
def mset (m : ItemMap) (k : String) (v : Item) : ItemMap :=
  if m.any (fun p => p.1 == k) then
    m.map (fun p => if p.1 == k then (k, v) else p)
  else
    m ++ [(k, v)]

/-- Property removal of a JS object, the delete operator. -/
def mdel (m : ItemMap) (k : String) : ItemMap :=
  m.filter (fun p => p.1 != k)

/-- The keys of the map, in order. -/
def mkeys (m : ItemMap) : List String := m.map (fun p => p.1)

/-- JS truthiness of an optional string: null, undefined and the empty
string are falsy. -/
def jsTruthy : Option String → Bool
  | none => false
  | some s => s != ""

/-- JS Array indexOf: index of the first occurrence, -1 when absent. -/
def jsIndexOf (l : List String) (x : String) : Int :=
  match l.findIdx? (fun y => y == x) with
  | some i => (i : Int)
  | none => -1

/-- JS Array splice restricted to what the program uses (result array
only): a negative start counts from the end and is clamped to the array
bounds, deleteCount elements are dropped and the inserts put in their
place. -/
def jsSplice {α : Type} (l : List α) (start : Int) (deleteCount : Nat)
    (inserts : List α) : List α :=
  let len : Int := l.length
  let s : Nat := (if start < 0 then max (len + start) 0 else min start len).toNat
  l.take s ++ inserts ++ l.drop (s + deleteCount)

/-- JS String trim: whitespace removed from both ends, written over the
character list so that it evaluates inside the kernel. -/
def jsTrim (s : String) : String :=
  String.mk (((s.data.dropWhile Char.isWhitespace).reverse.dropWhile Char.isWhitespace).reverse)

/-- The findParentId helper of src/utils.ts: linear scan, in key order, for
the first item whose children list contains childId. -/
def findParentId (items : ItemMap) (childId : String) : Option String :=
  (items.find? (fun p => p.2.children.contains childId)).map (fun p => p.1)

/-- Total number of child references in the map; used to size the fuel of
the stack traversals below. -/
def totalChildren (m : ItemMap) : Nat :=
  (m.map (fun p => p.2.children.length)).sum

/-- The stack loop of isAncestor in src/utils.ts: pop an id, succeed when it
is the searched id, otherwise push the children of the popped item. The
source keeps no visited list and diverges on a cyclic store; the embedding
skips already visited ids and spends one unit of fuel per loop step, and
the callers supply fuel exceeding the largest possible number of steps
(every id ever pushed comes from the initial stack or from the children of
a key visited for the first time), so the fuel-exhausted branch is
unreachable and the function returns what the source loop returns whenever
that loop terminates. -/
def subtreeReach (items : ItemMap) (target : String) :
    Nat → List String → List String → Bool
  | _, [], _ => false
  | 0, _ :: _, _ => false
  | fuel + 1, c :: stack, visited =>
    if c == target then true
    else if c ∈ visited then subtreeReach items target fuel stack visited
    else
      match mget items c with
      | none => subtreeReach items target fuel stack (c :: visited)
      | some item =>
        subtreeReach items target fuel (item.children.reverse ++ stack) (c :: visited)

/-- The isAncestor function of src/utils.ts. It answers true when
possibleAncestorId equals childId, and otherwise searches the subtree BELOW
childId for possibleAncestorId, so despite its name it decides whether
possibleAncestorId is a descendant of childId. -/
def isAncestor (items : ItemMap) (possibleAncestorId childId : String) : Bool :=
  if possibleAncestorId == childId then true
  else
    match mget items childId with
    | none => false
    | some child =>
      if child.children.length == 0 then false
      else
        subtreeReach items possibleAncestorId
          (child.children.length + totalChildren items + 1) child.children.reverse []

/-- The recursive delete helper of the DELETE reducer case, as a worklist:
visit an id; when it is still in the map, remove it and queue its children.
The source recurses and deletes the item after its subtree, which removes
the same set of entries whenever it terminates; the worklist form also
terminates on cyclic stores. One unit of fuel is spent per step and the
caller supplies more fuel than any run can use. -/
def deleteRecursive : Nat → ItemMap → List String → ItemMap
  | _, m, [] => m
  | 0, m, _ :: _ => m
  | fuel + 1, m, c :: rest =>
    match mget m c with
    | none => deleteRecursive fuel m rest
    | some item => deleteRecursive fuel (mdel m c) (item.children ++ rest)

/-- The WorkflowyState interface of src/types.ts: the flat item map plus the
fixed absolute root id. -/
structure WorkflowyState where
  items : ItemMap
  rootId : String
  deriving Repr, DecidableEq

/-- The DropPosition union of src/types.ts. -/
inductive DropPosition where
  | before
  | after
  | inside
  deriving Repr, DecidableEq

/-- The Action union handled by the reducer in src/hooks/useBulletpoints.tsx.
For ADD_ITEM the source computes the id of the created item as
providedId or generateId(): a truthy caller-supplied id is used as is and
otherwise a random fresh string is generated. The embedding carries the id
actually used, since random generation is outside the model. -/
inductive Action where
  | LOAD_STATE (state : WorkflowyState)
  | ADD_ITEM (afterId : Option String) (parentId : String) (newId : String)
  | UPDATE_TEXT (id : String) (text : String)
  | DELETE (id : String) (parentId : String)
  | MERGE_UP (id : String) (parentId : String) (previousItemId : String)
  | INDENT (id : String) (parentId : String)
  | OUTDENT (id : String) (parentId : String)
  | TOGGLE_COLLAPSE (id : String)
  | MOVE (dragId : String) (targetId : String) (position : DropPosition)
  | MOVE_ITEMS (dragIds : List String) (targetId : String) (position : DropPosition)
  | CHANGE_FONT_SIZE (id : String) (size : String)
  | UNDO
  | REDO
  deriving Repr, DecidableEq

/-- The unlink step of the MOVE_ITEMS case: find the current parent of the
id and remove every occurrence of the id from the children of that parent;
ids without a parent are left alone. -/
def unlinkFromParent (m : ItemMap) (id : String) : ItemMap :=
  match findParentId m id with
  | none => m
  | some parentId =>
    match mget m parentId with
    | none => m
    | some parent =>
      mset m parentId
        { parent with children := parent.children.filter (fun childId => childId != id) }

/-- The MOVE_ITEMS case of the reducer. The MOVE case of the source
delegates to it with a singleton drag list, so it is factored out here. -/
def moveItemsHandler (state : WorkflowyState) (dragIds : List String)
    (targetId : String) (position : DropPosition) : Except String WorkflowyState :=
  let items := state.items
  let topLevelDragIds := dragIds.filter (fun id =>
    !(dragIds.any (fun otherId => otherId != id && isAncestor items otherId id)))
  if topLevelDragIds.length == 0 then .ok state
  else if topLevelDragIds.any (fun id => id == targetId || isAncestor items id targetId) then
    .ok state
  else
    let newItems := topLevelDragIds.foldl unlinkFromParent items
    if position == DropPosition.inside then
      match mget newItems targetId with
      | none => .error "TypeError"
      | some target =>
        .ok { state with items := (mset newItems targetId
          { target with children := target.children ++ topLevelDragIds, collapsed := false }) }
    else
      match findParentId newItems targetId with
      | none => .ok { state with items := newItems }
      | some targetParentId =>
        match mget newItems targetParentId with
        | none => .ok { state with items := newItems }
        | some targetParent =>
          let targetIndex := jsIndexOf targetParent.children targetId
          let newChildren :=
            if position == DropPosition.before then
              jsSplice targetParent.children targetIndex 0 topLevelDragIds
            else
              jsSplice targetParent.children (targetIndex + 1) 0 topLevelDragIds
          .ok { state with items := (mset newItems targetParentId
            { targetParent with children := newChildren }) }

/-- The inner reducer of src/hooks/useBulletpoints.tsx: one structural or
content action applied to a store. Paths on which the source dereferences
undefined raise a TypeError, modelled by Except.error. -/
def reducer (state : WorkflowyState) (action : Action) : Except String WorkflowyState :=
  let items := state.items
  match action with
  | .LOAD_STATE s => .ok s
  | .ADD_ITEM afterId parentId newId =>
    match mget items parentId with
    | none => .ok state
    | some parent =>
      let newItem : Item :=
        { id := newId, text := "", children := [], isCompleted := false,
          collapsed := false, fontSize := some "small" }
      let withNew := mset items newId newItem
      let newChildren :=
        if jsTruthy afterId then
          match afterId with
          | some a =>
            match parent.children.findIdx? (fun y => y == a) with
            | some index => jsSplice parent.children ((index : Int) + 1) 0 [newId]
            | none => parent.children ++ [newId]
          | none => parent.children
        else
          newId :: parent.children
      .ok { state with items := mset withNew parentId { parent with children := newChildren } }
  | .UPDATE_TEXT id text =>
    match mget items id with
    | none => .ok state
    | some item => .ok { state with items := mset items id { item with text := text } }
  | .DELETE id parentId =>
    match mget items parentId with
    | none => .ok state
    | some parent =>
      let withoutChild := mset items parentId
        { parent with children := parent.children.filter (fun childId => childId != id) }
      .ok { state with items := deleteRecursive (1 + totalChildren withoutChild + 1) withoutChild [id] }
  | .MERGE_UP id parentId previousItemId =>
    match mget items id, mget items previousItemId, mget items parentId with
    | some item, some prevItem, some parent =>
      let newPrevText := prevItem.text ++ item.text
      if parentId == previousItemId then
        let childIndex := jsIndexOf parent.children id
        let newChildren := jsSplice parent.children childIndex 1 item.children
        .ok { state with items := (mdel (mset items parentId
          { parent with text := newPrevText, children := newChildren }) id) }
      else
        let m1 := mset items parentId
          { parent with children := parent.children.filter (fun c => c != id) }
        let m2 := mset m1 previousItemId
          { prevItem with text := newPrevText
                        , children := prevItem.children ++ item.children
                        , collapsed := false }
        .ok { state with items := mdel m2 id }
    | _, _, _ => .ok state
  | .INDENT id parentId =>
    match mget items parentId with
    | none => .ok state
    | some parent =>
      let index := jsIndexOf parent.children id
      if index ≤ 0 then .ok state
      else
        let prevSiblingId := parent.children.getD (index.toNat - 1) ""
        match mget items prevSiblingId with
        | none => .error "TypeError"
        | some prevSibling =>
          let m1 := mset items parentId
            { parent with children := parent.children.filter (fun childId => childId != id) }
          let m2 := mset m1 prevSiblingId
            { prevSibling with children := prevSibling.children ++ [id], collapsed := false }
          .ok { state with items := m2 }
  | .OUTDENT id parentId =>
    match findParentId items parentId with
    | none => .ok state
    | some grandParentId =>
      match mget items grandParentId, mget items parentId with
      | some grandParent, some parent =>
        let parentIndex := jsIndexOf grandParent.children parentId
        let m1 := mset items parentId
          { parent with children := parent.children.filter (fun childId => childId != id) }
        let m2 := mset m1 grandParentId
          { grandParent with children := jsSplice grandParent.children (parentIndex + 1) 0 [id] }
        .ok { state with items := m2 }
      | _, _ => .error "TypeError"
  | .TOGGLE_COLLAPSE id =>
    match mget items id with
    | none => .error "TypeError"
    | some item =>
      .ok { state with items := mset items id { item with collapsed := !item.collapsed } }
  | .MOVE dragId targetId position => moveItemsHandler state [dragId] targetId position
  | .MOVE_ITEMS dragIds targetId position => moveItemsHandler state dragIds targetId position
  | .CHANGE_FONT_SIZE id size =>
    match mget items id with
    | none => .ok state
    | some item => .ok { state with items := mset items id { item with fontSize := some size } }
  | .UNDO => .ok state
  | .REDO => .ok state

/-- The internal history state wrapper of src/hooks/useBulletpoints.tsx. -/
structure HistoryState where
  past : List WorkflowyState
  present : WorkflowyState
  future : List WorkflowyState
  lastAction : Option Action := none
  deriving Repr, DecidableEq

/-- The UNDO case of historyReducer: no-op on empty past, otherwise pop the
last past entry into present and push the prior present onto the front of
future, clearing the last-action marker. -/
def undoStep (state : HistoryState) : HistoryState :=
  match state.past.getLast? with
  | none => state
  | some previous =>
    { past := state.past.dropLast, present := previous,
      future := state.present :: state.future, lastAction := none }

/-- The REDO case of historyReducer: no-op on empty future, otherwise pop
the first future entry into present and push the prior present onto past,
clearing the last-action marker. -/
def redoStep (state : HistoryState) : HistoryState :=
  match state.future with
  | [] => state
  | next :: newFuture =>
    { past := state.past ++ [state.present], present := next,
      future := newFuture, lastAction := none }

/-- The coalescing test of historyReducer: the incoming action and the
recorded last action are both UPDATE_TEXT on the same id. -/
def isSameTextTarget (action : Action) (lastAction : Option Action) : Bool :=
  match action, lastAction with
  | .UPDATE_TEXT id _, some (.UPDATE_TEXT lastId _) => lastId == id
  | _, _ => false

/-- The historyReducer of src/hooks/useBulletpoints.tsx. The source
compares the new present to the old one by object reference; the reducer
returns the input object exactly on its no-op paths, so the embedding uses
value equality. -/
def historyReducer (state : HistoryState) (action : Action) : Except String HistoryState :=
  match action with
  | .UNDO => .ok (undoStep state)
  | .REDO => .ok (redoStep state)
  | .LOAD_STATE s => .ok { past := [], present := s, future := [], lastAction := none }
  | _ =>
    match reducer state.present action with
    | .error e => .error e
    | .ok newPresent =>
      if newPresent == state.present then .ok state
      else if isSameTextTarget action state.lastAction then
        .ok { state with present := newPresent, lastAction := some action, future := [] }
      else
        .ok { past := state.past ++ [state.present], present := newPresent,
              future := [], lastAction := some action }

/-- The initial history state of the useBulletpoints hook: empty past and
future around a present store, with no recorded last action. -/
def initHistory (s : WorkflowyState) : HistoryState :=
  { past := [], present := s, future := [], lastAction := none }

/-- Dispatch of a whole action sequence through the history reducer; an
exception thrown by any action aborts the remainder. -/
def applyAll (h : HistoryState) : List Action → Except String HistoryState
  | [] => .ok h
  | a :: rest =>
    match historyReducer h a with
    | .error e => .error e
    | .ok h2 => applyAll h2 rest

/-- Iterated UNDO transitions; historyReducer never fails on UNDO. -/
def undoN : Nat → HistoryState → HistoryState
  | 0, h => h
  | n + 1, h => undoN n (undoStep h)

/-- Iterated REDO transitions; historyReducer never fails on REDO. -/
def redoN : Nat → HistoryState → HistoryState
  | 0, h => h
  | n + 1, h => redoN n (redoStep h)

/-- The stripHtml helper of src/utils.ts parses its argument with the DOM
and returns the text content; on the already-plain strings considered here
it is the identity, which is how the embedding models it. -/
def stripHtml (html : String) : String := html

/-- A run of hyphens, one per nesting depth, as produced by the repeat call
in exportToText. -/
def hyphens (depth : Nat) : String := String.mk (List.replicate depth (Char.ofNat 45))

/-- The processList closure of exportToText in src/utils.ts: emit one line
per id (hyphens for the depth, then the stripped text), recursing into the
children of every item that has any. The source recursion would diverge on
a cyclic store; the embedding spends one unit of fuel per step, and the
top-level call supplies fuel exceeding the number of steps of any
terminating traversal. -/
def processList (items : ItemMap) : Nat → List String → Nat → String
  | _, [], _ => ""
  | 0, _ :: _, _ => ""
  | fuel + 1, id :: rest, depth =>
    (match mget items id with
     | none => ""
     | some item =>
       hyphens depth ++ stripHtml item.text ++ "\n" ++
       (if item.children.length > 0 then
          processList items fuel item.children (depth + 1)
        else "")) ++ processList items fuel rest depth

/-- The exportToText function of src/utils.ts: traverse the children of the
export root accumulating one line per item, then trim the result. The
nesting depth of a terminating traversal is bounded by the number of map
entries, so that is the fuel supplied. -/
def exportToText (items : ItemMap) (rootId : String) : String :=
  jsTrim (match mget items rootId with
   | none => ""
   | some root =>
     processList items (root.children.length + totalChildren items + 1) root.children 0)

/-- Modelled from the spec: the claimed export line enumeration, one line
of hyphens times depth followed by the plain text, for each VISIBLE node in
document order, with collapsed subtrees excluded. Written from the words
of the claim for comparison against exportToText. -/
def specVisibleLines (items : ItemMap) : Nat → List String → Nat → List String
  | _, [], _ => []
  | 0, _ :: _, _ => []
  | fuel + 1, id :: rest, depth =>
    (match mget items id with
     | none => []
     | some item =>
       (hyphens depth ++ stripHtml item.text) ::
       (if !item.collapsed then
          specVisibleLines items fuel item.children (depth + 1)
        else [])) ++ specVisibleLines items fuel rest depth

/-- Lines joined in order, each followed by a newline. -/
def joinLines : List String → String
  | [] => ""
  | l :: rest => l ++ "\n" ++ joinLines rest

/-- Trailing-whitespace trim, as claimed for the exporter. -/
def trimEnd (s : String) : String :=
  String.mk ((s.data.reverse.dropWhile Char.isWhitespace).reverse)

/-- Modelled from the spec: the claimed exporter, the visible-node lines
joined by newlines with trailing whitespace trimmed. -/
def specVisibleExport (items : ItemMap) (rootId : String) : String :=
  trimEnd (joinLines (match mget items rootId with
    | none => []
    | some root =>
      specVisibleLines items (root.children.length + totalChildren items + 1) root.children 0))

/-- The export line enumeration over ALL nodes of the subtree, collapsed or
not, used to state what exportToText actually emits. -/
def allNodeLines (items : ItemMap) : Nat → List String → Nat → List String
  | _, [], _ => []
  | 0, _ :: _, _ => []
  | fuel + 1, id :: rest, depth =>
    (match mget items id with
     | none => []
     | some item =>
       (hyphens depth ++ stripHtml item.text) ::
       (if item.children.length > 0 then
          allNodeLines items fuel item.children (depth + 1)
        else [])) ++ allNodeLines items fuel rest depth

/-- The all-node export: every line joined with a newline, then both ends
trimmed exactly as the source trim call does. -/
def allNodeExport (items : ItemMap) (rootId : String) : String :=
  jsTrim (joinLines (match mget items rootId with
    | none => []
    | some root =>
      allNodeLines items (root.children.length + totalChildren items + 1) root.children 0))

/-- Number of items whose children list contains the given id. -/
def countParents (m : ItemMap) (id : String) : Nat :=
  m.countP (fun p => p.2.children.contains id)

/-- The single-parent invariant: every key other than the root id is
contained in the children list of exactly one item. -/
abbrev SingleParent (s : WorkflowyState) : Prop :=
  ∀ k ∈ mkeys s.items, k ≠ s.rootId → countParents s.items k = 1

/-- The store invariants of the spec, section 3: the root id is a key and
is referenced by no children list, keys are unique, every referenced id
exists, every key has exactly one parent except the root, and every
non-root key is found below the root by the subtree search. -/
structure StoreInv (s : WorkflowyState) : Prop where
  rootIsKey : (mget s.items s.rootId).isSome = true
  rootUnreferenced : ∀ p ∈ s.items, s.rootId ∉ p.2.children
  nodupKeys : (mkeys s.items).Nodup
  refIntegrity : ∀ p ∈ s.items, ∀ cid ∈ p.2.children, (mget s.items cid).isSome = true
  singleParent : SingleParent s
  allReachable : ∀ k ∈ mkeys s.items, k ≠ s.rootId → isAncestor s.items k s.rootId = true

/-- Actions of the Mutation Engine action table (everything except the
history-level LOAD_STATE, UNDO and REDO messages). -/
def isStructural : Action → Bool
  | .LOAD_STATE _ => false
  | .UNDO => false
  | .REDO => false
  | _ => true

/-- Actions that name the root id as the item they create, delete, merge
away, outdent or drag. -/
def namesRootId (rootId : String) : Action → Bool
  | .ADD_ITEM _ _ newId => newId == rootId
  | .DELETE id _ => id == rootId
  | .MERGE_UP id _ _ => id == rootId
  | .OUTDENT id _ => id == rootId
  | .MOVE dragId _ _ => dragId == rootId
  | .MOVE_ITEMS dragIds _ _ => dragIds.contains rootId
  | _ => false

/-- Precondition of the amended single-parent claim: creation uses a fresh
id, and a move names an existing target. -/
def amendedSingleParentOK (s : WorkflowyState) : Action → Bool
  | .ADD_ITEM _ _ newId => !((mkeys s.items).contains newId) && countParents s.items newId == 0
  | .MOVE_ITEMS _ targetId _ => (mkeys s.items).contains targetId
  | _ => false

/-- An item fixture with the structural fields of interest. -/
def mkItem (id text : String) (children : List String) (collapsed : Bool := false) : Item :=
  { id := id, text := text, children := children, isCompleted := false,
    collapsed := collapsed, fontSize := none }

/-- Fixture: root with a single child A which has a single child B. -/
def chainStore : WorkflowyState :=
  { items := [("root", mkItem "root" "Home" ["A"]),
              ("A", mkItem "A" "alpha" ["B"]),
              ("B", mkItem "B" "beta" [])],
    rootId := "root" }

/-- Fixture: root with children A (which has child B) and C. -/
def forkStore : WorkflowyState :=
  { items := [("root", mkItem "root" "Home" ["A", "C"]),
              ("A", mkItem "A" "alpha" ["B"]),
              ("B", mkItem "B" "beta" []),
              ("C", mkItem "C" "gamma" [])],
    rootId := "root" }

/-- Fixture: root with two leaf children A and P. -/
def twoLeafStore : WorkflowyState :=
  { items := [("root", mkItem "root" "Home" ["A", "P"]),
              ("A", mkItem "A" "alpha" []),
              ("P", mkItem "P" "papa" [])],
    rootId := "root" }

/-- Fixture for the exporter: root over X over Y, nobody collapsed. -/
def exportScenarioStore : WorkflowyState :=
  { items := [("root", mkItem "root" "Home" ["X"]),
              ("X", mkItem "X" "X" ["Y"]),
              ("Y", mkItem "Y" "Y" [])],
    rootId := "root" }

/-- Fixture for the exporter counterexample: the same tree with X
collapsed. -/
def collapsedExportStore : WorkflowyState :=
  { items := [("root", mkItem "root" "Home" ["X"]),
              ("X", mkItem "X" "X" ["Y"] true),
              ("Y", mkItem "Y" "Y" [])],
    rootId := "root" }


/-- True when the item is reachable from itself by following children links,
excluding the trivial zero-step case: the subtree search started from the
children of the item finds the item again. -/
def reachableFromSelf (items : ItemMap) (id : String) : Bool :=
  match mget items id with
  | none => false
  | some item =>
    subtreeReach items id (item.children.length + totalChildren items + 1)
      item.children.reverse []

/-- Expected result of moving A inside its own child B in chainStore. -/
def cycledChainStore : WorkflowyState :=
  { items := [("root", mkItem "root" "Home" []),
              ("A", mkItem "A" "alpha" ["B"]),
              ("B", mkItem "B" "beta" ["A"])],
    rootId := "root" }

/-- Expected result of dragging the set containing A and its child B onto C
in forkStore: the code relocates the bottommost id B alone. -/
def forkMovedStore : WorkflowyState :=
  { items := [("root", mkItem "root" "Home" ["A", "C"]),
              ("A", mkItem "A" "alpha" []),
              ("B", mkItem "B" "beta" []),
              ("C", mkItem "C" "gamma" ["B"])],
    rootId := "root" }

/-- Expected result of moving A before a nonexistent target in
twoLeafStore: A is unlinked from the root and never reinserted. -/
def ghostMovedStore : WorkflowyState :=
  { items := [("root", mkItem "root" "Home" ["P"]),
              ("A", mkItem "A" "alpha" []),
              ("P", mkItem "P" "papa" [])],
    rootId := "root" }

/-- Expected result of adding an item with the colliding id A under P in
twoLeafStore: the existing item A is overwritten and the id A ends up in
the children of both root and P. -/
def addCollisionStore : WorkflowyState :=
  { items := [("root", mkItem "root" "Home" ["A", "P"]),
              ("A", { id := "A", text := "", children := [], isCompleted := false,
                      collapsed := false, fontSize := some "small" }),
              ("P", mkItem "P" "papa" ["A"])],
    rootId := "root" }

/-- Invariant of history states reached from the initial state by
structural actions only: the future stack is empty, the oldest retained
snapshot (or, with empty past, the present itself) is the initial store,
and a recorded last action implies a nonempty past. -/
def historyInv (s0 : WorkflowyState) (h : HistoryState) : Prop :=
  h.future = [] ∧
  (h.past = [] → h.present = s0) ∧
  (∀ p, h.past.head? = some p → p = s0) ∧
  (h.lastAction.isSome = true → h.past ≠ [])

/-- Fixture action sequence for the undo/redo law: two store-changing
structural actions. -/
def c8Acts : List Action :=
  [.TOGGLE_COLLAPSE "A", .UPDATE_TEXT "P" "hello"]

/-- The history state reached by the fixture sequence. -/
def c8Fixture : HistoryState :=
  match applyAll (initHistory twoLeafStore) c8Acts with
  | .ok h => h
  | .error _ => initHistory twoLeafStore

/-- Fixture action sequence for the redo-availability invariant. -/
def c10Acts : List Action :=
  [.UPDATE_TEXT "A" "x", .UNDO, .REDO, .TOGGLE_COLLAPSE "P"]

/-- The history state reached by the second fixture sequence. -/
def c10Fixture : HistoryState :=
  match applyAll (initHistory twoLeafStore) c10Acts with
  | .ok h => h
  | .error _ => initHistory twoLeafStore

/-- Fixture action for the amended single-parent claim: add an item with a
fresh id N under P. -/
def c5Act : Action := .ADD_ITEM none "P" "N"

/-- The store reached by the single-parent fixture action. -/
def c5Fixture : WorkflowyState :=
  match reducer twoLeafStore c5Act with
  | .ok s => s
  | .error _ => twoLeafStore

/-- Fixture action for the amended root-preservation claim: delete the
leaf A from under the root. -/
def c7Act : Action := .DELETE "A" "root"

/-- The store reached by the root-preservation fixture action. -/
def c7Fixture : WorkflowyState :=
  match reducer twoLeafStore c7Act with
  | .ok s => s
  | .error _ => twoLeafStore

/-!
Claim theorems. Each claim of the specification is settled against the
embedding above; concrete stores exercise the code paths the claims are
about.
-/

/-- C1: the cycle-guard claim fails on the code. chainStore satisfies the
section 3 invariants; in the action dragging A inside B the reduced drag
set is the nonempty set containing only A, and the target B is a
descendant of A (the subtree search finds B below A), so the claim demands
the input store back unchanged; the reducer instead unlinks A from the
root and attaches it below its own descendant B. -/
theorem c1_cycle_guard_violated :
    StoreInv chainStore ∧
    isAncestor chainStore.items "B" "A" = true ∧
    reducer chainStore (.MOVE_ITEMS ["A"] "B" .inside) = .ok cycledChainStore ∧
    cycledChainStore ≠ chainStore := by
  refine ⟨⟨by decide, by decide, by decide, by decide, by decide, by decide⟩,
    by decide, rfl, by decide⟩

/-- C2: the acyclicity claim fails on the code. Applying one MOVE_ITEMS
action to the invariant-satisfying chainStore produces a store in which A
is reachable from itself through children links. -/
theorem c2_acyclicity_violated :
    StoreInv chainStore ∧
    reducer chainStore (.MOVE_ITEMS ["A"] "B" .inside) = .ok cycledChainStore ∧
    reachableFromSelf cycledChainStore.items "A" = true := by
  refine ⟨⟨by decide, by decide, by decide, by decide, by decide, by decide⟩, rfl, by decide⟩

/-- C3: the topmost-subset claim fails on the code. In forkStore the drag
set consists of A and its descendant B, so the claim says B is dropped and
A is moved carrying B; the reducer instead drops the ancestor A and moves
the descendant B alone: after the move, C contains B and not A, A is still
a child of the root, and A has lost its child B. -/
theorem c3_topmost_subset_violated :
    StoreInv forkStore ∧
    isAncestor forkStore.items "B" "A" = true ∧
    reducer forkStore (.MOVE_ITEMS ["A", "B"] "C" .inside) = .ok forkMovedStore ∧
    (mget forkMovedStore.items "C").map Item.children = some ["B"] ∧
    (mget forkMovedStore.items "A").map Item.children = some [] ∧
    (mget forkMovedStore.items "root").map Item.children = some ["A", "C"] := by
  refine ⟨⟨by decide, by decide, by decide, by decide, by decide, by decide⟩,
    by decide, rfl, by decide, by decide, by decide⟩

/-- C4: the no-parent no-op claim fails on the code. The target id has no
discoverable parent in twoLeafStore, the position is before, and the claim
demands the input store back unchanged with nothing unlinked; the reducer
instead unlinks the dragged item A from the root and returns a store in
which A is an orphan key. -/
theorem c4_unparented_target_violated :
    StoreInv twoLeafStore ∧
    findParentId twoLeafStore.items "ghost" = none ∧
    reducer twoLeafStore (.MOVE_ITEMS ["A"] "ghost" .before) = .ok ghostMovedStore ∧
    ghostMovedStore ≠ twoLeafStore ∧
    "A" ∈ mkeys ghostMovedStore.items ∧
    findParentId ghostMovedStore.items "A" = none := by
  refine ⟨⟨by decide, by decide, by decide, by decide, by decide, by decide⟩,
    by decide, rfl, by decide, by decide, by decide⟩

/-- C6: the missing-id ToggleCollapse claim fails on the code. The id is
not a key of the item map and the claim says the action is a silent no-op;
the handler has no existence guard and dereferences undefined, raising a
TypeError. -/
theorem c6_toggle_missing_id_throws :
    mget twoLeafStore.items "missing" = none ∧
    reducer twoLeafStore (.TOGGLE_COLLAPSE "missing") = .error "TypeError" := by
  exact ⟨by decide, rfl⟩

/-- C5 counterexample: an ADD_ITEM whose caller-supplied id collides with
the existing key A makes A a child of both the root and P, so exactly-one-
parent fails after this action even though the input store satisfied the
section 3 invariants. -/
theorem c5_counterexample_add_collision :
    StoreInv twoLeafStore ∧
    reducer twoLeafStore (.ADD_ITEM none "P" "A") = .ok addCollisionStore ∧
    "A" ∈ mkeys addCollisionStore.items ∧
    "A" ≠ "root" ∧
    countParents addCollisionStore.items "A" = 2 := by
  refine ⟨⟨by decide, by decide, by decide, by decide, by decide, by decide⟩,
    rfl, by decide, by decide, by decide⟩

/-- C7 counterexample: a Delete action whose deleted id is the root id
removes the root (and with it the whole map), so the root-preservation
claim fails as stated for actions that name the root. -/
theorem c7_counterexample_delete_root :
    StoreInv twoLeafStore ∧
    reducer twoLeafStore (.DELETE "root" "root") = .ok { items := [], rootId := "root" } ∧
    mget ([] : ItemMap) "root" = none := by
  refine ⟨⟨by decide, by decide, by decide, by decide, by decide, by decide⟩, rfl, by decide⟩

/-- C9 counterexample: on a store whose item X is collapsed, the claimed
visible-only export produces the single line X while the code exports the
collapsed child Y as well, so the visible-node reading of the claim fails
on the code. -/
theorem c9_counterexample_collapsed_exported :
    exportToText collapsedExportStore.items "root" = "X\n-Y" ∧
    specVisibleExport collapsedExportStore.items "root" = "X" ∧
    ("X\n-Y" : String) ≠ "X" := by
  exact ⟨rfl, rfl, by decide⟩

/-- Joining concatenated line lists splits into the two joins. -/
theorem joinLines_append (l1 l2 : List String) :
    joinLines (l1 ++ l2) = joinLines l1 ++ joinLines l2 := by
  induction l1 with
  | nil => simp [joinLines]
  | cons l rest ih => simp [joinLines, ih, String.append_assoc]

/-- The exporter accumulator equals the joined all-node line enumeration,
for every fuel value, id list and depth. -/
theorem processList_eq_joined_lines (items : ItemMap) :
    ∀ (fuel : Nat) (ids : List String) (depth : Nat),
      processList items fuel ids depth = joinLines (allNodeLines items fuel ids depth) := by
  intro fuel
  induction fuel with
  | zero => intro ids depth; cases ids <;> rfl
  | succ f ih =>
    intro ids depth
    cases ids with
    | nil => rfl
    | cons id rest =>
      simp only [processList, allNodeLines]
      cases h : mget items id with
      | none => simp [ih, joinLines]
      | some item =>
        by_cases hc : item.children.length > 0
        · simp [hc, ih, joinLines, joinLines_append, String.append_assoc]
        · simp [hc, ih, joinLines, joinLines_append, String.append_assoc]

/-- C9 amended: exporting emits one line of hyphens repeated depth times
followed by the plain text for EVERY node of the export subtree in
document order, collapsed or not, and the concatenated output is trimmed
of surrounding whitespace; in particular the three-level scenario yields
the claimed string. -/
theorem c9_amended_export_every_node :
    (∀ (items : ItemMap) (rootId : String),
      exportToText items rootId = allNodeExport items rootId) ∧
    exportToText exportScenarioStore.items "root" = "X\n-Y" := by
  constructor
  · intro items rootId
    unfold exportToText allNodeExport
    cases h : mget items rootId with
    | none => simp [h, joinLines]
    | some root => simp [h, processList_eq_joined_lines]
  · decide

/-- On the structural actions (everything except UNDO, REDO and
LOAD_STATE) the history reducer runs the inner reducer and performs the
no-op check, the coalescing check and the standard push. -/
theorem historyReducer_structural (h : HistoryState) (a : Action)
    (hA : isStructural a = true) :
    historyReducer h a =
      match reducer h.present a with
      | .error e => .error e
      | .ok newPresent =>
        if newPresent == h.present then .ok h
        else if isSameTextTarget a h.lastAction then
          .ok { h with present := newPresent, lastAction := some a, future := [] }
        else
          .ok { past := h.past ++ [h.present], present := newPresent,
                future := [], lastAction := some a } := by
  cases a <;> first | rfl | simp [isStructural] at hA

/-- Single-step preservation of the redo-availability invariant: any
successful history transition keeps the property that a recorded last
action implies an empty future stack. -/
theorem lastActionImpliesNoFuture_step (h h2 : HistoryState) (a : Action)
    (hinv : h.lastAction.isSome = true → h.future = [])
    (hstep : historyReducer h a = .ok h2) :
    h2.lastAction.isSome = true → h2.future = [] := by
  by_cases hA : isStructural a = true
  · rw [historyReducer_structural h a hA] at hstep
    split at hstep
    · exact absurd hstep (by simp)
    · split at hstep
      · cases hstep
        exact hinv
      · split at hstep
        · cases hstep
          intro _
          rfl
        · cases hstep
          intro _
          rfl
  · cases a
    all_goals try exact absurd rfl hA
    · simp only [historyReducer] at hstep
      cases hstep
      intro _
      rfl
    · have heq : undoStep h = h2 := by simpa [historyReducer] using hstep
      subst heq
      unfold undoStep
      cases hg : h.past.getLast? with
      | none => exact hinv
      | some q => intro hx; simp at hx
    · have heq : redoStep h = h2 := by simpa [historyReducer] using hstep
      subst heq
      unfold redoStep
      cases hf : h.future with
      | nil => exact hinv
      | cons x xs => intro hx; simp at hx

/-- C10: in every history state reachable from the initial state (empty
past, empty future, no recorded last action), a defined last action
implies an empty redo stack; hence redo is available only immediately
after an Undo or Redo transition, and the future-clearing in the
coalescing branch never discards a redo entry. -/
theorem c10_lastAction_implies_empty_future :
    ∀ (s0 : WorkflowyState) (acts : List Action) (h : HistoryState),
      applyAll (initHistory s0) acts = .ok h →
      h.lastAction.isSome = true → h.future = [] := by
  have aux : ∀ (acts : List Action) (h0 h : HistoryState),
      (h0.lastAction.isSome = true → h0.future = []) →
      applyAll h0 acts = .ok h →
      (h.lastAction.isSome = true → h.future = []) := by
    intro acts
    induction acts with
    | nil =>
      intro h0 h hi happ
      simp only [applyAll] at happ
      cases happ
      exact hi
    | cons a rest ih =>
      intro h0 h hi happ
      simp only [applyAll] at happ
      cases hr : historyReducer h0 a with
      | error e => rw [hr] at happ; cases happ
      | ok h2 =>
        rw [hr] at happ
        exact ih h2 h (lastActionImpliesNoFuture_step h0 h2 a hi hr) happ
  intro s0 acts h happ
  exact aux acts (initHistory s0) h (by intro hx; simp [initHistory] at hx) happ

/-- Witness for C10: a concrete store-changing sequence ending in a
structural action leaves a defined last action and an empty future. -/
theorem c10_witness :
    applyAll (initHistory twoLeafStore) c10Acts = .ok c10Fixture ∧
    c10Fixture.lastAction.isSome = true ∧
    c10Fixture.future = [] := by
  have happ : applyAll (initHistory twoLeafStore) c10Acts = .ok c10Fixture := by rfl
  exact ⟨happ, by decide,
    c10_lastAction_implies_empty_future twoLeafStore c10Acts c10Fixture happ (by decide)⟩

/-- A positive coalescing test implies a recorded last action. -/
theorem isSameTextTarget_isSome (a : Action) (la : Option Action)
    (h : isSameTextTarget a la = true) : la.isSome = true := by
  cases la with
  | none => cases a <;> simp [isSameTextTarget] at h
  | some b => rfl

/-- Undo is the identity on a history state with empty past. -/
theorem undoStep_of_empty_past (h : HistoryState) (hp : h.past = []) :
    undoStep h = h := by
  simp [undoStep, hp]

/-- Draining undo: applying at least as many undo steps as there are past
entries lands on the oldest snapshot, empties the past, and pushes the
undone presents onto the future in order. -/
theorem undo_drain : ∀ (k : Nat) (h : HistoryState), h.past.length ≤ k →
    (undoN k h).present = h.past.head?.getD h.present ∧
    (undoN k h).past = [] ∧
    (undoN k h).future =
      (if h.past.isEmpty then h.future else h.past.tail ++ (h.present :: h.future)) := by
  intro k
  induction k with
  | zero =>
    intro h hlen
    have hp : h.past = [] := List.eq_nil_of_length_eq_zero (Nat.le_zero.mp hlen)
    simp [undoN, hp]
  | succ k ih =>
    intro h hlen
    rcases List.eq_nil_or_concat h.past with hp | ⟨ps, q, hp⟩
    · have hfix : undoStep h = h := undoStep_of_empty_past h hp
      have := ih h (by simp [hp])
      simpa [undoN, hfix] using this
    · have hstep : undoStep h =
          { past := ps, present := q, future := h.present :: h.future, lastAction := none } := by
        simp [undoStep, hp, List.getLast?_concat, List.dropLast_concat]
      have hlen2 : ps.length ≤ k := by
        have : h.past.length = ps.length + 1 := by simp [hp]
        omega
      have hres := ih (undoStep h) (by rw [hstep]; exact hlen2)
      rw [hstep] at hres
      simp only [undoN]
      rw [hstep]
      obtain ⟨hpres, hpast, hfut⟩ := hres
      refine ⟨?_, hpast, ?_⟩
      · rw [hpres]
        cases ps with
        | nil => simp [hp]
        | cons x ps2 => simp [hp]
      · rw [hfut]
        cases ps with
        | nil => simp [hp]
        | cons x ps2 => simp [hp]

/-- Draining redo: applying at least as many redo steps as there are
future entries lands on the newest snapshot, empties the future, and
pushes the redone presents onto the past in order. -/
theorem redo_drain : ∀ (k : Nat) (h : HistoryState), h.future.length ≤ k →
    (redoN k h).present = h.future.getLast?.getD h.present ∧
    (redoN k h).future = [] ∧
    (redoN k h).past =
      h.past ++ (if h.future.isEmpty then [] else h.present :: h.future.dropLast) := by
  intro k
  induction k with
  | zero =>
    intro h hlen
    have hp : h.future = [] := List.eq_nil_of_length_eq_zero (Nat.le_zero.mp hlen)
    simp [redoN, hp]
  | succ k ih =>
    intro h hlen
    cases hf : h.future with
    | nil =>
      have hfix : redoStep h = h := by simp [redoStep, hf]
      have := ih h (by simp [hf])
      simpa [redoN, hfix, hf] using this
    | cons x xs =>
      have hstep : redoStep h =
          { past := h.past ++ [h.present], present := x, future := xs, lastAction := none } := by
        simp [redoStep, hf]
      have hlen2 : xs.length ≤ k := by
        have : h.future.length = xs.length + 1 := by simp [hf]
        omega
      have hres := ih (redoStep h) (by rw [hstep]; exact hlen2)
      rw [hstep] at hres
      simp only [redoN]
      rw [hstep]
      obtain ⟨hpres, hfut, hpast⟩ := hres
      refine ⟨?_, hfut, ?_⟩
      · rw [hpres]
        cases xs with
        | nil => simp [hf]
        | cons y ys =>
          simp only [hf]
          obtain ⟨z, hz⟩ := Option.isSome_iff_exists.mp
            (List.getLast?_isSome.mpr (by simp) : (y :: ys).getLast?.isSome)
          simp [hz]
      · rw [hpast]
        cases xs with
        | nil => simp [hf]
        | cons y ys => simp [hf]

/-- One successful structural transition preserves the history invariant
and grows the past by at most one entry. -/
theorem historyInv_step (s0 : WorkflowyState) (h h2 : HistoryState) (a : Action)
    (hA : isStructural a = true) (hi : historyInv s0 h)
    (hstep : historyReducer h a = .ok h2) :
    historyInv s0 h2 ∧ h2.past.length ≤ h.past.length + 1 := by
  obtain ⟨hf, he, hh, hl⟩ := hi
  rw [historyReducer_structural h a hA] at hstep
  split at hstep
  · exact absurd hstep (by simp)
  · split at hstep
    · cases hstep
      exact ⟨⟨hf, he, hh, hl⟩, by omega⟩
    · split at hstep
      · rename_i hnoop hcoal
        cases hstep
        have hpast_ne : h.past ≠ [] := hl (isSameTextTarget_isSome a h.lastAction hcoal)
        refine ⟨⟨rfl, fun hp => absurd hp hpast_ne, hh, fun _ => hpast_ne⟩,
          by simpa using Nat.le_succ h.past.length⟩
      · cases hstep
        refine ⟨⟨rfl, ?_, ?_, ?_⟩, by simp⟩
        · intro hp
          simp at hp
        · intro p hp
          cases hpa : h.past with
          | nil =>
            rw [hpa] at hp
            simp at hp
            rw [← hp]
            exact he hpa
          | cons x xs =>
            rw [hpa] at hp
            simp at hp
            exact hh p (by rw [hpa]; simpa using hp)
        · intro _
          simp

/-- The history invariant holds after any successful structural action
sequence from the initial history state, and the past never has more
entries than the number of actions applied. -/
theorem historyInv_applyAll (s0 : WorkflowyState) :
    ∀ (acts : List Action) (h0 h : HistoryState),
      (∀ a ∈ acts, isStructural a = true) →
      historyInv s0 h0 →
      applyAll h0 acts = .ok h →
      historyInv s0 h ∧ h.past.length ≤ h0.past.length + acts.length := by
  intro acts
  induction acts with
  | nil =>
    intro h0 h hA hi happ
    simp only [applyAll] at happ
    cases happ
    exact ⟨hi, by omega⟩
  | cons a rest ih =>
    intro h0 h hA hi happ
    simp only [applyAll] at happ
    cases hr : historyReducer h0 a with
    | error e => rw [hr] at happ; cases happ
    | ok h2 =>
      rw [hr] at happ
      have hstep := historyInv_step s0 h0 h2 a (hA a (by simp)) hi hr
      have := ih h2 h (fun x hx => hA x (by simp [hx])) hstep.1 happ
      refine ⟨this.1, ?_⟩
      have := this.2
      have := hstep.2
      simp only [List.length_cons]
      omega

/-- Iterated UNDO messages through the history reducer are the iterated
undo transition. -/
theorem applyAll_replicate_undo : ∀ (n : Nat) (h : HistoryState),
    applyAll h (List.replicate n Action.UNDO) = .ok (undoN n h) := by
  intro n
  induction n with
  | zero => intro h; rfl
  | succ n ih =>
    intro h
    simp only [List.replicate, applyAll, historyReducer, undoN]
    exact ih (undoStep h)

/-- Iterated REDO messages through the history reducer are the iterated
redo transition. -/
theorem applyAll_replicate_redo : ∀ (n : Nat) (h : HistoryState),
    applyAll h (List.replicate n Action.REDO) = .ok (redoN n h) := by
  intro n
  induction n with
  | zero => intro h; rfl
  | succ n ih =>
    intro h
    simp only [List.replicate, applyAll, historyReducer, redoN]
    exact ih (redoStep h)

/-- C8: for any sequence of structural actions applied from the initial
history state, issuing UNDO once per action returns the present store to
the initial store, and issuing REDO the same number of times afterwards
returns the present store to the final store; surplus undos and redos are
no-ops on the empty stacks. -/
theorem c8_undo_redo_inverse :
    ∀ (s0 : WorkflowyState) (acts : List Action) (h : HistoryState),
      (∀ a ∈ acts, isStructural a = true) →
      applyAll (initHistory s0) acts = .ok h →
      applyAll h (List.replicate acts.length Action.UNDO) = .ok (undoN acts.length h) ∧
      (undoN acts.length h).present = s0 ∧
      applyAll (undoN acts.length h) (List.replicate acts.length Action.REDO) =
        .ok (redoN acts.length (undoN acts.length h)) ∧
      (redoN acts.length (undoN acts.length h)).present = h.present := by
  intro s0 acts h hA happ
  have hinv0 : historyInv s0 (initHistory s0) := by
    refine ⟨rfl, fun _ => rfl, ?_, ?_⟩
    · intro p hp
      simp [initHistory] at hp
    · intro hx
      simp [initHistory] at hx
  obtain ⟨⟨hf, he, hh, hl⟩, hlen⟩ :=
    historyInv_applyAll s0 acts (initHistory s0) h hA hinv0 happ
  have hlen2 : h.past.length ≤ acts.length := by simpa [initHistory] using hlen
  obtain ⟨hupres, hupast, hufut⟩ := undo_drain acts.length h hlen2
  have hpres_s0 : (undoN acts.length h).present = s0 := by
    rw [hupres]
    cases hpa : h.past with
    | nil => simpa using he hpa
    | cons x xs =>
      simpa using hh x (by rw [hpa]; rfl)
  have hfutlen : (undoN acts.length h).future.length ≤ acts.length := by
    rw [hufut]
    cases hpa : h.past with
    | nil => simp [hf]
    | cons x xs =>
      rw [hpa] at hlen2
      simp [hpa, hf]
      simp at hlen2
      omega
  obtain ⟨hrpres, hrfut, hrpast⟩ := redo_drain acts.length (undoN acts.length h) hfutlen
  refine ⟨applyAll_replicate_undo acts.length h, hpres_s0,
    applyAll_replicate_redo acts.length (undoN acts.length h), ?_⟩
  rw [hrpres, hufut]
  cases hpa : h.past with
  | nil =>
    rw [hf]
    simpa [hpres_s0] using (he hpa).symm
  | cons x xs =>
    rw [hf]
    simp [List.getLast?_concat]

/-- Witness for C8: the fixture sequence of two structural actions, undone
twice and redone twice, lands back on the initial and final stores. -/
theorem c8_witness :
    (∀ a ∈ c8Acts, isStructural a = true) ∧
    applyAll (initHistory twoLeafStore) c8Acts = .ok c8Fixture ∧
    (undoN c8Acts.length c8Fixture).present = twoLeafStore ∧
    (redoN c8Acts.length (undoN c8Acts.length c8Fixture)).present = c8Fixture.present := by
  have hA : ∀ a ∈ c8Acts, isStructural a = true := by decide
  have happ : applyAll (initHistory twoLeafStore) c8Acts = .ok c8Fixture := by rfl
  have hmain := c8_undo_redo_inverse twoLeafStore c8Acts c8Fixture hA happ
  exact ⟨hA, happ, hmain.2.1, hmain.2.2.2⟩

/-- A key is looked up successfully exactly when it is among the keys. -/
theorem mget_isSome_iff (m : ItemMap) (k : String) :
    (mget m k).isSome = true ↔ k ∈ mkeys m := by
  simp [mget, mkeys, List.find?_isSome]

/-- A successful lookup comes from an entry of the list. -/
theorem mem_of_mget_eq_some {m : ItemMap} {k : String} {v : Item}
    (h : mget m k = some v) : (k, v) ∈ m := by
  unfold mget at h
  cases hf : m.find? (fun p => p.1 == k) with
  | none => rw [hf] at h; cases h
  | some e =>
    rw [hf] at h
    have hm := List.mem_of_find?_eq_some hf
    have hp := List.find?_some hf
    obtain ⟨e1, e2⟩ := e
    simp at hp h
    rw [← hp, ← h]
    exact hm

/-- A failed lookup means no entry has the key. -/
theorem mget_eq_none_iff {m : ItemMap} {k : String} :
    mget m k = none ↔ ∀ p ∈ m, p.1 ≠ k := by
  simp [mget, List.find?_eq_none]

/-- Key membership unfolded to entry membership. -/
theorem mem_mkeys {m : ItemMap} {k : String} :
    k ∈ mkeys m ↔ ∃ p ∈ m, p.1 = k := by
  simp [mkeys]

/-- Splitting an in-place update: with unique keys, a successful lookup
splits the list around its entry, and the update replaces exactly that
entry. -/
theorem mset_split {k : String} {old : Item} (v : Item) :
    ∀ {m : ItemMap}, (mkeys m).Nodup → mget m k = some old →
    ∃ m1 m2, m = m1 ++ (k, old) :: m2 ∧ (∀ p ∈ m1, p.1 ≠ k) ∧ (∀ p ∈ m2, p.1 ≠ k) ∧
      mset m k v = m1 ++ (k, v) :: m2 := by
  intro m
  induction m with
  | nil => intro _ h; simp [mget] at h
  | cons q m ih =>
    intro hnd h
    have hcons : (q.1 :: mkeys m).Nodup := by simpa [mkeys] using hnd
    have hq_not : q.1 ∉ mkeys m := (List.nodup_cons.mp hcons).1
    have hnd2 : (mkeys m).Nodup := (List.nodup_cons.mp hcons).2
    by_cases hq : q.1 = k
    · have hold : old = q.2 := by
        simp [mget, List.find?_cons, hq] at h
        exact h.symm
      have hnomatch : ∀ p ∈ m, p.1 ≠ k := by
        intro p hp hpk
        exact hq_not (by rw [hq, ← hpk]; exact mem_mkeys.mpr ⟨p, hp, rfl⟩)
      have hqk : q = (k, old) := by
        obtain ⟨q1, q2⟩ := q
        simp at hq hold
        rw [hq, hold]
      refine ⟨[], m, by simpa using hqk, by simp, hnomatch, ?_⟩
      unfold mset
      have hany : (q :: m).any (fun p => p.1 == k) = true := by
        simp [List.any_cons, hq]
      rw [if_pos hany]
      simp only [List.map_cons]
      have hmapq : (if (q.1 == k) = true then ((k : String), v) else q) = (k, v) := by
        simp [hq]
      rw [hmapq]
      have hmapm : m.map (fun p => if p.1 == k then ((k : String), v) else p) = m := by
        have : m.map (fun p => if p.1 == k then ((k : String), v) else p) = m.map id :=
          List.map_congr_left (fun p hp => by simp [hnomatch p hp])
        simpa using this
      simp only [List.nil_append]
      rw [hmapm]
    · have h2 : mget m k = some old := by
        simpa [mget, List.find?_cons, hq] using h
      obtain ⟨m1, m2, hm, h1, h2k, hms⟩ := ih hnd2 h2
      refine ⟨q :: m1, m2, by simp [hm], ?_, h2k, ?_⟩
      · intro p hp
        rcases List.mem_cons.mp hp with rfl | hp2
        · exact hq
        · exact h1 p hp2
      · unfold mset
        have hanym : m.any (fun p => p.1 == k) = true := by
          have hmem : (k, old) ∈ m := mem_of_mget_eq_some h2
          exact List.any_eq_true.mpr ⟨(k, old), hmem, by simp⟩
        have hany : (q :: m).any (fun p => p.1 == k) = true := by
          simp [List.any_cons, hanym]
        rw [if_pos hany]
        simp only [List.map_cons]
        have hmapq : (if (q.1 == k) = true then ((k : String), v) else q) = q := by
          simp [hq]
        rw [hmapq]
        unfold mset at hms
        rw [if_pos hanym] at hms
        rw [hms]
        simp

/-- Counting parents distributes over list concatenation. -/
theorem countParents_append (m1 m2 : ItemMap) (id : String) :
    countParents (m1 ++ m2) id = countParents m1 id + countParents m2 id := by
  simp [countParents, List.countP_append]

/-- Effect of an in-place update on the parent count, as a cancellation
equation: only the updated entry changes its contribution. -/
theorem countParents_mset_eq {m : ItemMap} {k : String} {old : Item}
    (hnd : (mkeys m).Nodup) (hold : mget m k = some old) (v : Item) (id : String) :
    countParents (mset m k v) id + (if old.children.contains id then 1 else 0)
      = countParents m id + (if v.children.contains id then 1 else 0) := by
  obtain ⟨m1, m2, hm, _, _, hms⟩ := mset_split v hnd hold
  rw [hms, hm]
  simp only [countParents, List.countP_append, List.countP_cons]
  by_cases h1 : old.children.contains id = true <;>
    by_cases h2 : v.children.contains id = true <;>
      simp [h1, h2] <;> omega

/-- An in-place update is read back at its own key. -/
theorem mget_mset_self {m : ItemMap} {k : String} {old : Item}
    (hnd : (mkeys m).Nodup) (hold : mget m k = some old) (v : Item) :
    mget (mset m k v) k = some v := by
  obtain ⟨m1, m2, hm, h1, _, hms⟩ := mset_split v hnd hold
  rw [hms]
  unfold mget
  rw [List.find?_append]
  have hn : m1.find? (fun p => p.1 == k) = none :=
    List.find?_eq_none.mpr (fun p hp => by simp [h1 p hp])
  simp [hn, List.find?_cons]

/-- An update at one key does not change the lookup of another key. -/
theorem mget_mset_ne {m : ItemMap} {k k2 : String} (v : Item) (hne : k2 ≠ k) :
    mget (mset m k v) k2 = mget m k2 := by
  unfold mset
  split
  · have aux : ∀ (mm : ItemMap),
        (mm.map (fun p => if p.1 == k then ((k : String), v) else p)).find?
            (fun p => p.1 == k2) = mm.find? (fun p => p.1 == k2) := by
      intro mm
      induction mm with
      | nil => rfl
      | cons q mm ihm =>
        simp only [List.map_cons, List.find?_cons]
        by_cases hqk : q.1 = k
        · have hx : (if (q.1 == k) = true then ((k : String), v) else q) = (k, v) := by
            simp [hqk]
          rw [hx]
          have hk2 : ((((k : String), v)).1 == k2) = false := by simp [Ne.symm hne]
          have hq2 : (q.1 == k2) = false := by simp [hqk, Ne.symm hne]
          rw [hk2, hq2]
          exact ihm
        · have hx : (if (q.1 == k) = true then ((k : String), v) else q) = q := by
            simp [hqk]
          rw [hx]
          cases hq2 : (q.1 == k2) with
          | false => exact ihm
          | true => rfl
    unfold mget
    rw [aux]
  · unfold mget
    rw [List.find?_append]
    cases hf : m.find? (fun p => p.1 == k2) with
    | some e => simp
    | none =>
      simp only [Option.none_or]
      have : (((k, v) : String × Item).1 == k2) = false := by simp [Ne.symm hne]
      simp [List.find?_cons, this]

/-- An update at a present key leaves the key list unchanged. -/
theorem mkeys_mset_of_mem {m : ItemMap} {k : String} (hk : k ∈ mkeys m) (v : Item) :
    mkeys (mset m k v) = mkeys m := by
  unfold mset
  have hany : m.any (fun p => p.1 == k) = true := by
    obtain ⟨p, hp, hpk⟩ := mem_mkeys.mp hk
    exact List.any_eq_true.mpr ⟨p, hp, by simp [hpk]⟩
  rw [if_pos hany]
  unfold mkeys
  rw [List.map_map]
  apply List.map_congr_left
  intro p _
  by_cases hpk : p.1 = k <;> simp [hpk]

/-- An update at a fresh key appends that key. -/
theorem mkeys_mset_of_not_mem {m : ItemMap} {k : String} (hk : k ∉ mkeys m) (v : Item) :
    mkeys (mset m k v) = mkeys m ++ [k] := by
  unfold mset
  have hany : m.any (fun p => p.1 == k) = false := by
    cases hx : m.any (fun p => p.1 == k) with
    | false => rfl
    | true =>
      obtain ⟨p, hp, hpk⟩ := List.any_eq_true.mp hx
      exact absurd (mem_mkeys.mpr ⟨p, hp, by simpa using hpk⟩) hk
  rw [if_neg (by simp [hany])]
  simp [mkeys]

/-- Updates never remove keys. -/
theorem mem_mkeys_mset {m : ItemMap} {k k0 : String} (hk : k0 ∈ mkeys m) (v : Item) :
    k0 ∈ mkeys (mset m k v) := by
  by_cases hkm : k ∈ mkeys m
  · rw [mkeys_mset_of_mem hkm]
    exact hk
  · rw [mkeys_mset_of_not_mem hkm]
    simp [hk]

/-- Updates preserve key uniqueness. -/
theorem nodup_mkeys_mset {m : ItemMap} {k : String} (hnd : (mkeys m).Nodup) (v : Item) :
    (mkeys (mset m k v)).Nodup := by
  by_cases hkm : k ∈ mkeys m
  · rw [mkeys_mset_of_mem hkm]
    exact hnd
  · rw [mkeys_mset_of_not_mem hkm]
    rw [List.nodup_append]
    refine ⟨hnd, List.nodup_singleton k, ?_⟩
    intro a ha hak
    simp at hak
    exact hkm (hak ▸ ha)

/-- Every entry of an updated map is an original entry or the new entry. -/
theorem mem_mset_elim {m : ItemMap} {k : String} {v : Item} {p : String × Item}
    (hp : p ∈ mset m k v) : p ∈ m ∨ p = (k, v) := by
  unfold mset at hp
  split at hp
  · obtain ⟨q, hq, hfq⟩ := List.mem_map.mp hp
    by_cases hqk : q.1 = k
    · right
      rw [← hfq]
      simp [hqk]
    · left
      rw [← hfq]
      simpa [hqk] using hq
  · rcases List.mem_append.mp hp with h | h
    · exact Or.inl h
    · right
      simpa using h

/-- Deleting one key keeps every other key. -/
theorem mem_mkeys_mdel {m : ItemMap} {k k0 : String} (hk : k0 ∈ mkeys m) (hne : k0 ≠ k) :
    k0 ∈ mkeys (mdel m k) := by
  obtain ⟨p, hp, hpk⟩ := mem_mkeys.mp hk
  exact mem_mkeys.mpr ⟨p, List.mem_filter.mpr ⟨hp, by simp [hpk, hne]⟩, hpk⟩

/-- Entries of a deletion are entries of the original. -/
theorem mem_mdel_subset {m : ItemMap} {k : String} {p : String × Item}
    (hp : p ∈ mdel m k) : p ∈ m :=
  (List.mem_filter.mp hp).1

/-- The parent count is zero exactly when no children list contains the
id. -/
theorem countParents_eq_zero_iff {m : ItemMap} {id : String} :
    countParents m id = 0 ↔ ∀ p ∈ m, id ∉ p.2.children := by
  unfold countParents
  rw [List.countP_eq_zero]
  constructor
  · intro h p hp hmem
    exact h p hp (by simpa [List.elem_iff] using hmem)
  · intro h p hp hcon
    exact h p hp (by simpa [List.elem_iff] using hcon)

/-- The parent scan fails exactly when the parent count is zero. -/
theorem findParentId_eq_none_iff {m : ItemMap} {id : String} :
    findParentId m id = none ↔ countParents m id = 0 := by
  unfold findParentId
  rw [countParents_eq_zero_iff]
  simp [List.find?_eq_none, List.elem_iff]

/-- A positive parent count makes the parent scan succeed. -/
theorem findParentId_isSome_of_pos {m : ItemMap} {id : String}
    (h : 0 < countParents m id) : ∃ pid, findParentId m id = some pid := by
  cases hf : findParentId m id with
  | none =>
    rw [findParentId_eq_none_iff.mp hf] at h
    exact absurd h (by omega)
  | some pid => exact ⟨pid, rfl⟩

/-- With unique keys, every entry is read back by its own key. -/
theorem mget_of_mem_nodup {m : ItemMap} (hnd : (mkeys m).Nodup) :
    ∀ {p : String × Item}, p ∈ m → mget m p.1 = some p.2 := by
  induction m with
  | nil => intro p hp; simp at hp
  | cons q m ih =>
    intro p hp
    have hcons : (q.1 :: mkeys m).Nodup := by simpa [mkeys] using hnd
    rcases List.mem_cons.mp hp with rfl | hp2
    · simp [mget, List.find?_cons]
    · have hne : p.1 ≠ q.1 := by
        intro hx
        exact (List.nodup_cons.mp hcons).1 (hx ▸ mem_mkeys.mpr ⟨p, hp2, rfl⟩)
      have hqp : (q.1 == p.1) = false := by simp [Ne.symm hne]
      have := ih (List.nodup_cons.mp hcons).2 hp2
      simpa [mget, List.find?_cons, hqp] using this

/-- With unique keys, a successful parent scan yields the parent item, and
that item contains the child. -/
theorem findParentId_spec {m : ItemMap} {id pid : String} (hnd : (mkeys m).Nodup)
    (h : findParentId m id = some pid) :
    ∃ par, mget m pid = some par ∧ par.children.contains id = true := by
  unfold findParentId at h
  cases hf : m.find? (fun p => p.2.children.contains id) with
  | none => rw [hf] at h; cases h
  | some e =>
    rw [hf] at h
    simp at h
    have he := List.mem_of_find?_eq_some hf
    have hp := List.find?_some hf
    refine ⟨e.2, ?_, hp⟩
    rw [← h]
    exact mget_of_mem_nodup hnd he

/-- Filtering one id out does not change containment of any other id. -/
theorem contains_filter_ne {l : List String} {t u : String} (hne : u ≠ t) :
    ((l.filter (fun c => c != t)).contains u) = l.contains u := by
  by_cases hm : u ∈ l
  · have h1 : l.contains u = true := List.elem_iff.mpr hm
    have h2 : (l.filter (fun c => c != t)).contains u = true :=
      List.elem_iff.mpr (List.mem_filter.mpr ⟨hm, by simp [hne]⟩)
    rw [h1, h2]
  · have h1 : l.contains u ≠ true := fun hx => hm (List.elem_iff.mp hx)
    have h2 : (l.filter (fun c => c != t)).contains u ≠ true :=
      fun hx => hm (List.mem_filter.mp (List.elem_iff.mp hx)).1
    simp only [Bool.not_eq_true] at h1 h2
    rw [h1, h2]

/-- A filtered children list never contains the filtered id. -/
theorem contains_filter_self {l : List String} {t : String} :
    ((l.filter (fun c => c != t)).contains t) = false := by
  cases hc : (l.filter (fun c => c != t)).contains t with
  | false => rfl
  | true =>
    have := (List.mem_filter.mp (List.elem_iff.mp hc)).2
    simp at this

/-- Containment distributes over concatenation. -/
theorem contains_append_or {l1 l2 : List String} {u : String} :
    ((l1 ++ l2).contains u) = (l1.contains u || l2.contains u) := by
  by_cases h1 : u ∈ l1
  · have e1 : l1.contains u = true := List.elem_iff.mpr h1
    have e2 : (l1 ++ l2).contains u = true :=
      List.elem_iff.mpr (List.mem_append.mpr (Or.inl h1))
    rw [e1, e2]
    simp
  · by_cases h2 : u ∈ l2
    · have e1 : l2.contains u = true := List.elem_iff.mpr h2
      have e2 : (l1 ++ l2).contains u = true :=
        List.elem_iff.mpr (List.mem_append.mpr (Or.inr h2))
      rw [e1, e2]
      simp
    · have hx : (l1 ++ l2).contains u ≠ true := fun hc => by
        rcases List.mem_append.mp (List.elem_iff.mp hc) with h | h
        exacts [h1 h, h2 h]
      have hy : l1.contains u ≠ true := fun hc => h1 (List.elem_iff.mp hc)
      have hz : l2.contains u ≠ true := fun hc => h2 (List.elem_iff.mp hc)
      simp only [Bool.not_eq_true] at hx hy hz
      rw [hx, hy, hz]
      rfl

/-- Membership of a splice with no deletions is membership of the original
array or of the inserts. -/
theorem mem_jsSplice_iff {α : Type} {l xs : List α} {s : Int} {x : α} :
    x ∈ jsSplice l s 0 xs ↔ x ∈ l ∨ x ∈ xs := by
  simp only [jsSplice, Nat.add_zero, List.mem_append]
  constructor
  · rintro ((h | h) | h)
    · exact Or.inl (List.mem_of_mem_take h)
    · exact Or.inr h
    · exact Or.inl (List.mem_of_mem_drop h)
  · rintro (h | h)
    · conv at h => rw [← List.take_append_drop
        ((if (s : Int) < 0 then max ((l.length : Int) + s) 0 else min s (l.length : Int)).toNat) l]
      rcases List.mem_append.mp h with h | h
      · exact Or.inl (Or.inl h)
      · exact Or.inr h
    · exact Or.inl (Or.inr h)

/-- Members of any splice come from the original array or the inserts. -/
theorem mem_jsSplice_subset {α : Type} {l xs : List α} {s : Int} {d : Nat} {x : α}
    (h : x ∈ jsSplice l s d xs) : x ∈ l ∨ x ∈ xs := by
  simp only [jsSplice, List.mem_append] at h
  rcases h with (h | h) | h
  · exact Or.inl (List.mem_of_mem_take h)
  · exact Or.inr h
  · exact Or.inl (List.mem_of_mem_drop h)

/-- Unlinking never changes the key list. -/
theorem mkeys_unlink (m : ItemMap) (id : String) :
    mkeys (unlinkFromParent m id) = mkeys m := by
  unfold unlinkFromParent
  cases hf : findParentId m id with
  | none => rfl
  | some pid =>
    cases hg : mget m pid with
    | none => simp [hg]
    | some parent =>
      simp only [hg]
      exact mkeys_mset_of_mem
        (mem_mkeys.mpr ⟨(pid, parent), mem_of_mget_eq_some hg, rfl⟩) _

/-- Unlinking an id decrements its parent count (to zero from one). -/
theorem countParents_unlink_self {m : ItemMap} {t : String} (hnd : (mkeys m).Nodup) :
    countParents (unlinkFromParent m t) t = countParents m t - 1 := by
  unfold unlinkFromParent
  cases hf : findParentId m t with
  | none =>
    have h0 : countParents m t = 0 := findParentId_eq_none_iff.mp hf
    simp [h0]
  | some pid =>
    obtain ⟨par, hpar, hcon⟩ := findParentId_spec hnd hf
    simp only [hpar]
    have heq := countParents_mset_eq hnd hpar
      { par with children := par.children.filter (fun c => c != t) } t
    rw [hcon] at heq
    simp only [contains_filter_self] at heq
    simp at heq
    have hpos : 0 < countParents m t := by
      unfold countParents
      refine List.countP_pos_iff.mpr ⟨(pid, par), mem_of_mget_eq_some hpar, ?_⟩
      simpa using hcon
    omega

/-- Unlinking one id leaves the parent count of every other id alone. -/
theorem countParents_unlink_other {m : ItemMap} {t u : String} (hnd : (mkeys m).Nodup)
    (hne : u ≠ t) :
    countParents (unlinkFromParent m t) u = countParents m u := by
  unfold unlinkFromParent
  cases hf : findParentId m t with
  | none => rfl
  | some pid =>
    obtain ⟨par, hpar, _⟩ := findParentId_spec hnd hf
    simp only [hpar]
    have heq := countParents_mset_eq hnd hpar
      { par with children := par.children.filter (fun c => c != t) } u
    simp only [contains_filter_ne hne] at heq
    omega

/-- The unlink fold never changes the key list. -/
theorem mkeys_foldl_unlink : ∀ (ts : List String) (m : ItemMap),
    mkeys (ts.foldl unlinkFromParent m) = mkeys m := by
  intro ts
  induction ts with
  | nil => intro m; rfl
  | cons t ts ih =>
    intro m
    simp only [List.foldl_cons]
    rw [ih, mkeys_unlink]

/-- The unlink fold leaves undragged ids with their original parent
count. -/
theorem countParents_foldl_unlink_not_mem : ∀ (ts : List String) (m : ItemMap) (u : String),
    (mkeys m).Nodup → u ∉ ts →
    countParents (ts.foldl unlinkFromParent m) u = countParents m u := by
  intro ts
  induction ts with
  | nil => intro m u _ _; rfl
  | cons t ts ih =>
    intro m u hnd hu
    simp only [List.foldl_cons]
    have hnd2 : (mkeys (unlinkFromParent m t)).Nodup := by rw [mkeys_unlink]; exact hnd
    rw [ih (unlinkFromParent m t) u hnd2 (fun hx => hu (List.mem_cons_of_mem t hx))]
    exact countParents_unlink_other hnd (fun hx => hu (hx ▸ List.mem_cons_self t ts))

/-- The unlink fold brings every dragged id with at most one parent down
to zero parents. -/
theorem countParents_foldl_unlink_mem : ∀ (ts : List String) (m : ItemMap) (u : String),
    (mkeys m).Nodup → u ∈ ts → countParents m u ≤ 1 →
    countParents (ts.foldl unlinkFromParent m) u = 0 := by
  intro ts
  induction ts with
  | nil => intro m u _ hu; simp at hu
  | cons t ts ih =>
    intro m u hnd hu hle
    simp only [List.foldl_cons]
    have hnd2 : (mkeys (unlinkFromParent m t)).Nodup := by rw [mkeys_unlink]; exact hnd
    by_cases hut : u = t
    · subst hut
      have hz : countParents (unlinkFromParent m u) u = 0 := by
        rw [countParents_unlink_self hnd]
        omega
      by_cases hu2 : u ∈ ts
      · exact ih (unlinkFromParent m u) u hnd2 hu2 (by omega)
      · rw [countParents_foldl_unlink_not_mem ts (unlinkFromParent m u) u hnd2 hu2]
        exact hz
    · have hu2 : u ∈ ts := by
        rcases List.mem_cons.mp hu with hx | hx
        · exact absurd hx hut
        · exact hx
      have := countParents_unlink_other hnd hut (m := m) (t := t)
      exact ih (unlinkFromParent m t) u hnd2 hu2 (by rw [this]; exact hle)

/-- Unlinking ids that no children list contains does nothing at all. -/
theorem foldl_unlink_nop : ∀ (ts : List String) (m : ItemMap),
    (∀ t ∈ ts, countParents m t = 0) → ts.foldl unlinkFromParent m = m := by
  intro ts
  induction ts with
  | nil => intro m _; rfl
  | cons t ts ih =>
    intro m hz
    simp only [List.foldl_cons]
    have hstep : unlinkFromParent m t = m := by
      unfold unlinkFromParent
      have : findParentId m t = none :=
        findParentId_eq_none_iff.mpr (hz t (List.mem_cons_self t ts))
      rw [this]
    rw [hstep]
    exact ih m (fun x hx => hz x (List.mem_cons_of_mem t hx))

/-- Containment from membership. -/
theorem contains_eq_true_of_mem {l : List String} {x : String} (h : x ∈ l) :
    l.contains x = true := List.elem_iff.mpr h

/-- Non-membership gives a false containment test. -/
theorem contains_eq_false_of_not_mem {l : List String} {x : String} (h : x ∉ l) :
    l.contains x = false := by
  cases hc : l.contains x with
  | false => rfl
  | true => exact absurd (List.elem_iff.mp hc) h

/-- Updating at a fresh key is an append. -/
theorem mset_eq_append_of_not_mem {m : ItemMap} {k : String} (hk : k ∉ mkeys m) (v : Item) :
    mset m k v = m ++ [(k, v)] := by
  unfold mset
  have hany : m.any (fun p => p.1 == k) = false := by
    cases hx : m.any (fun p => p.1 == k) with
    | false => rfl
    | true =>
      obtain ⟨p, hp, hpk⟩ := List.any_eq_true.mp hx
      exact absurd (mem_mkeys.mpr ⟨p, hp, by simpa using hpk⟩) hk
  rw [if_neg (by simp [hany])]

/-- Updating at a fresh key adds only the contribution of the new value to
any parent count. -/
theorem countParents_mset_fresh {m : ItemMap} {k : String} (hk : k ∉ mkeys m)
    (v : Item) (u : String) :
    countParents (mset m k v) u =
      countParents m u + (if v.children.contains u then 1 else 0) := by
  rw [mset_eq_append_of_not_mem hk]
  rw [countParents_append]
  simp [countParents, List.countP_cons]

/-- A lookup that succeeds on the left part of a concatenation succeeds on
the whole. -/
theorem mget_append_left {m m2 : ItemMap} {k : String} {v : Item}
    (h : mget m k = some v) : mget (m ++ m2) k = some v := by
  unfold mget at h ⊢
  rw [List.find?_append]
  cases hf : m.find? (fun p => p.1 == k) with
  | none => rw [hf] at h; cases h
  | some e => rw [hf] at h; simpa using h

/-- Single parenthood is preserved by ADD_ITEM when the id actually used
for the new item is fresh: not an existing key and in no children list. -/
theorem singleParent_add {s : WorkflowyState} {afterId : Option String}
    {parentId newId : String} {s2 : WorkflowyState}
    (hinv : StoreInv s)
    (hfresh1 : newId ∉ mkeys s.items) (hfresh2 : countParents s.items newId = 0)
    (hred : reducer s (.ADD_ITEM afterId parentId newId) = .ok s2) :
    SingleParent s2 := by
  simp only [reducer] at hred
  cases hm : mget s.items parentId with
  | none =>
    rw [hm] at hred
    cases hred
    exact hinv.singleParent
  | some parent =>
    rw [hm] at hred
    have hnd := hinv.nodupKeys
    -- name the new item and the possible children lists
    cases hred
    -- establish the membership property of the children list actually used
    set newItem : Item :=
      { id := newId, text := "", children := [], isCompleted := false,
        collapsed := false, fontSize := some "small" } with hNI
    set NC : List String :=
      (if jsTruthy afterId = true then
        match afterId with
        | some a =>
          match parent.children.findIdx? (fun y => y == a) with
          | some index => jsSplice parent.children ((index : Int) + 1) 0 [newId]
          | none => parent.children ++ [newId]
        | none => parent.children
      else newId :: parent.children) with hNC
    have hmemNC : ∀ x, x ∈ NC ↔ x ∈ parent.children ∨ x = newId := by
      intro x
      rw [hNC]
      split
      · rename_i htruthy
        cases afterId with
        | none => simp [jsTruthy] at htruthy
        | some a =>
          cases hidx : parent.children.findIdx? (fun y => y == a) with
          | some index => simp [hidx, mem_jsSplice_iff]
          | none => simp [hidx]
      · simp only [List.mem_cons]
        tauto
    -- the intermediate map with the new entry appended
    have hm1keys : mkeys (mset s.items newId newItem) = mkeys s.items ++ [newId] :=
      mkeys_mset_of_not_mem hfresh1 newItem
    have hm1nodup : (mkeys (mset s.items newId newItem)).Nodup :=
      nodup_mkeys_mset hnd newItem
    have hm1count : ∀ u, countParents (mset s.items newId newItem) u = countParents s.items u := by
      intro u
      rw [countParents_mset_fresh hfresh1 newItem u]
      simp [hNI]
    have hm1get : mget (mset s.items newId newItem) parentId = some parent := by
      rw [mset_eq_append_of_not_mem hfresh1 newItem]
      exact mget_append_left hm
    -- the final map
    intro k hk hkr
    dsimp only at hk hkr ⊢
    have hpkeys : parentId ∈ mkeys (mset s.items newId newItem) := by
      rw [hm1keys]
      exact List.mem_append.mpr (Or.inl (mem_mkeys.mpr
        ⟨(parentId, parent), mem_of_mget_eq_some hm, rfl⟩))
    have hkeys2 : mkeys (mset (mset s.items newId newItem) parentId
        { parent with children := NC }) = mkeys s.items ++ [newId] := by
      rw [mkeys_mset_of_mem hpkeys, hm1keys]
    have hfinal := countParents_mset_eq hm1nodup hm1get { parent with children := NC } k
    by_cases hkn : k = newId
    · subst hkn
      have hpc : parent.children.contains k = false := by
        apply contains_eq_false_of_not_mem
        exact countParents_eq_zero_iff.mp hfresh2 (parentId, parent) (mem_of_mget_eq_some hm)
      have hncc : NC.contains k = true :=
        contains_eq_true_of_mem ((hmemNC k).mpr (Or.inr rfl))
      rw [hpc, hncc] at hfinal
      simp only [Bool.false_eq_true, if_false, if_true] at hfinal
      rw [hm1count] at hfinal
      omega
    · have hks : k ∈ mkeys s.items := by
        rw [hkeys2] at hk
        rcases List.mem_append.mp hk with h | h
        · exact h
        · simp at h
          exact absurd h hkn
      have hsp := hinv.singleParent k hks hkr
      have hncc : NC.contains k = parent.children.contains k := by
        cases hc : parent.children.contains k with
        | true => exact contains_eq_true_of_mem ((hmemNC k).mpr (Or.inl (List.elem_iff.mp hc)))
        | false =>
          apply contains_eq_false_of_not_mem
          intro hx
          rcases (hmemNC k).mp hx with h | h
          · rw [contains_eq_true_of_mem h] at hc
            cases hc
          · exact hkn h
      rw [hncc] at hfinal
      rw [hm1count] at hfinal
      omega

/-- Containment in a zero-deletion splice is containment in the original
array or in the inserts. -/
theorem contains_jsSplice_zero {l xs : List String} {st : Int} {x : String} :
    ((jsSplice l st 0 xs).contains x) = (l.contains x || xs.contains x) := by
  by_cases hm : x ∈ jsSplice l st 0 xs
  · have e1 : (jsSplice l st 0 xs).contains x = true := contains_eq_true_of_mem hm
    rw [e1]
    rcases mem_jsSplice_iff.mp hm with h | h
    · rw [contains_eq_true_of_mem h]
      simp
    · rw [contains_eq_true_of_mem h]
      simp
  · have e1 : (jsSplice l st 0 xs).contains x = false := contains_eq_false_of_not_mem hm
    have h1 : x ∉ l := fun hx => hm (mem_jsSplice_iff.mpr (Or.inl hx))
    have h2 : x ∉ xs := fun hx => hm (mem_jsSplice_iff.mpr (Or.inr hx))
    rw [e1, contains_eq_false_of_not_mem h1, contains_eq_false_of_not_mem h2]
    rfl

/-- Single parenthood is preserved by MOVE_ITEMS in every position when
the target id is an existing key. -/
theorem singleParent_move {s : WorkflowyState} {dragIds : List String} {targetId : String}
    {position : DropPosition} {s2 : WorkflowyState}
    (hinv : StoreInv s) (htgt : targetId ∈ mkeys s.items)
    (hred : moveItemsHandler s dragIds targetId position = .ok s2) :
    SingleParent s2 := by
  simp only [moveItemsHandler] at hred
  set TL := dragIds.filter (fun id =>
    !(dragIds.any (fun otherId => otherId != id && isAncestor s.items otherId id))) with hTL
  set NI := List.foldl unlinkFromParent s.items TL with hNI
  split at hred
  · cases hred
    exact hinv.singleParent
  · split at hred
    · cases hred
      exact hinv.singleParent
    · rename_i hTLne hguard
      have hndNI : (mkeys NI).Nodup := by
        rw [hNI, mkeys_foldl_unlink]
        exact hinv.nodupKeys
      have hkeysNI : mkeys NI = mkeys s.items := by
        rw [hNI]
        exact mkeys_foldl_unlink TL s.items
      have htgtTL : targetId ∉ TL := fun hx =>
        hguard (List.any_eq_true.mpr ⟨targetId, hx, by simp⟩)
      split at hred
      · -- position is inside
        split at hred
        · cases hred
        · rename_i target hmt
          cases hred
          intro k hk hkr
          dsimp only at hk hkr ⊢
          have htgtNI : targetId ∈ mkeys NI := by rw [hkeysNI]; exact htgt
          have hks : k ∈ mkeys s.items := by
            rw [mkeys_mset_of_mem htgtNI, hkeysNI] at hk
            exact hk
          have hfinal := countParents_mset_eq hndNI hmt
            { target with children := target.children ++ TL, collapsed := false } k
          dsimp only at hfinal
          rw [contains_append_or] at hfinal
          by_cases hkTL : k ∈ TL
          · have hcNI : countParents NI k = 0 := by
              rw [hNI]
              exact countParents_foldl_unlink_mem TL s.items k hinv.nodupKeys hkTL
                (le_of_eq (hinv.singleParent k hks hkr))
            have htc : target.children.contains k = false := by
              apply contains_eq_false_of_not_mem
              exact countParents_eq_zero_iff.mp hcNI (targetId, target) (mem_of_mget_eq_some hmt)
            rw [htc, contains_eq_true_of_mem hkTL, hcNI] at hfinal
            simp only [Bool.false_or, Bool.false_eq_true, if_false, if_true] at hfinal
            omega
          · have hcNI : countParents NI k = countParents s.items k := by
              rw [hNI]
              exact countParents_foldl_unlink_not_mem TL s.items k hinv.nodupKeys hkTL
            rw [contains_eq_false_of_not_mem hkTL] at hfinal
            simp only [Bool.or_false] at hfinal
            rw [hcNI, hinv.singleParent k hks hkr] at hfinal
            omega
      · -- position is before or after
        split at hred
        · rename_i hfp
          cases hred
          by_cases hroot : targetId = s.rootId
          · have hTLnokey : ∀ t ∈ TL, countParents s.items t = 0 := by
              intro t ht
              by_cases hcnt : countParents s.items t = 0
              · exact hcnt
              · exfalso
                have hpos2 : 0 < countParents s.items t := Nat.pos_of_ne_zero hcnt
                unfold countParents at hpos2
                obtain ⟨p, hp, hpc⟩ := List.countP_pos_iff.mp hpos2
                have htkey : t ∈ mkeys s.items :=
                  (mget_isSome_iff s.items t).mp (hinv.refIntegrity p hp t (List.elem_iff.mp hpc))
                apply hguard
                apply List.any_eq_true.mpr
                refine ⟨t, ht, ?_⟩
                by_cases htr : t = s.rootId
                · rw [htr, hroot]
                  simp
                · have hre := hinv.allReachable t htkey htr
                  rw [hroot]
                  simp [hre]
            have hnop : NI = s.items := by
              rw [hNI]
              exact foldl_unlink_nop TL s.items hTLnokey
            intro k hk hkr
            dsimp only at hk hkr ⊢
            rw [hnop] at hk ⊢
            exact hinv.singleParent k hk hkr
          · exfalso
            have h1 : countParents s.items targetId = 1 := hinv.singleParent targetId htgt hroot
            have h2 : countParents NI targetId = 1 := by
              rw [hNI, countParents_foldl_unlink_not_mem TL s.items targetId hinv.nodupKeys htgtTL]
              exact h1
            rw [findParentId_eq_none_iff] at hfp
            omega
        · rename_i tpid hfp
          split at hred
          · rename_i hmtp
            obtain ⟨par, hpar, _⟩ := findParentId_spec hndNI hfp
            rw [hpar] at hmtp
            cases hmtp
          · rename_i targetParent hmtp
            have main : ∀ (st : Int) (s3 : WorkflowyState),
                s3 = WorkflowyState.mk
                    (mset NI tpid
                      { targetParent with children := jsSplice targetParent.children st 0 TL })
                    s.rootId →
                SingleParent s3 := by
              intro st s3 hs3
              subst hs3
              intro k hk hkr
              dsimp only at hk hkr ⊢
              have htpNI : tpid ∈ mkeys NI :=
                mem_mkeys.mpr ⟨(tpid, targetParent), mem_of_mget_eq_some hmtp, rfl⟩
              have hks : k ∈ mkeys s.items := by
                rw [mkeys_mset_of_mem htpNI, hkeysNI] at hk
                exact hk
              have hfinal := countParents_mset_eq hndNI hmtp
                { targetParent with children := jsSplice targetParent.children st 0 TL } k
              dsimp only at hfinal
              rw [contains_jsSplice_zero] at hfinal
              by_cases hkTL : k ∈ TL
              · have hcNI : countParents NI k = 0 := by
                  rw [hNI]
                  exact countParents_foldl_unlink_mem TL s.items k hinv.nodupKeys hkTL
                    (le_of_eq (hinv.singleParent k hks hkr))
                have htc : targetParent.children.contains k = false := by
                  apply contains_eq_false_of_not_mem
                  exact countParents_eq_zero_iff.mp hcNI (tpid, targetParent)
                    (mem_of_mget_eq_some hmtp)
                rw [htc, contains_eq_true_of_mem hkTL, hcNI] at hfinal
                simp only [Bool.false_or, Bool.false_eq_true, if_false, if_true] at hfinal
                omega
              · have hcNI : countParents NI k = countParents s.items k := by
                  rw [hNI]
                  exact countParents_foldl_unlink_not_mem TL s.items k hinv.nodupKeys hkTL
                rw [contains_eq_false_of_not_mem hkTL] at hfinal
                simp only [Bool.or_false] at hfinal
                rw [hcNI, hinv.singleParent k hks hkr] at hfinal
                omega
            split at hred
            · cases hred
              exact main (jsIndexOf targetParent.children targetId) _ rfl
            · cases hred
              exact main (jsIndexOf targetParent.children targetId + 1) _ rfl

/-- C5 amended: for all ids except root, exactly one children list
contains that id after any ADD_ITEM whose used id is fresh and after any
MOVE_ITEMS in any position whose target id is an existing key, applied to
a store satisfying the section 3 invariants. -/
theorem c5_amended_single_parent :
    ∀ (s : WorkflowyState) (a : Action) (s2 : WorkflowyState),
      StoreInv s → amendedSingleParentOK s a = true → reducer s a = .ok s2 →
      SingleParent s2 := by
  intro s a s2 hinv hok hred
  cases a
  case ADD_ITEM afterId parentId newId =>
    simp only [amendedSingleParentOK] at hok
    rw [Bool.and_eq_true] at hok
    obtain ⟨ha, hb⟩ := hok
    have h1 : newId ∉ mkeys s.items := by
      intro hx
      rw [contains_eq_true_of_mem hx] at ha
      cases ha
    have h2 : countParents s.items newId = 0 := by
      simpa using hb
    exact singleParent_add hinv h1 h2 hred
  case MOVE_ITEMS dragIds targetId position =>
    simp only [amendedSingleParentOK] at hok
    have htgt : targetId ∈ mkeys s.items := List.elem_iff.mp hok
    exact singleParent_move hinv htgt hred
  all_goals simp [amendedSingleParentOK] at hok

/-- Witness for C5: adding a fresh item N under P in the two-leaf store
keeps every non-root key with exactly one parent. -/
theorem c5_witness :
    StoreInv twoLeafStore ∧
    amendedSingleParentOK twoLeafStore c5Act = true ∧
    reducer twoLeafStore c5Act = .ok c5Fixture ∧
    SingleParent c5Fixture := by
  have hinv : StoreInv twoLeafStore :=
    ⟨by decide, by decide, by decide, by decide, by decide, by decide⟩
  have hok : amendedSingleParentOK twoLeafStore c5Act = true := by decide
  have hred : reducer twoLeafStore c5Act = .ok c5Fixture := by rfl
  exact ⟨hinv, hok, hred, c5_amended_single_parent twoLeafStore c5Act c5Fixture hinv hok hred⟩

/-- A successful index search means the searched id is in the list. -/
theorem mem_of_findIdx_some {x : String} : ∀ {l : List String} {i : Nat},
    l.findIdx? (fun y => y == x) = some i → x ∈ l := by
  intro l
  induction l with
  | nil => intro i h; simp at h
  | cons a l ih =>
    intro i h
    rw [List.findIdx?_cons] at h
    by_cases ha : (a == x) = true
    · simp at ha
      rw [← ha]
      exact List.mem_cons_self a l
    · rw [if_neg ha] at h
      simp only [List.findIdx?_succ] at h
      cases hf : List.findIdx? (fun y => y == x) l with
      | none => rw [hf] at h; cases h
      | some j => exact List.mem_cons_of_mem a (ih hf)

/-- Members of the ADD_ITEM children list are the old members or the new
id. -/
theorem mem_addChildren {parent : Item} {afterId : Option String} {newId x : String}
    (hx : x ∈ (if jsTruthy afterId = true then
        match afterId with
        | some a =>
          match parent.children.findIdx? (fun y => y == a) with
          | some index => jsSplice parent.children ((index : Int) + 1) 0 [newId]
          | none => parent.children ++ [newId]
        | none => parent.children
      else newId :: parent.children)) : x ∈ parent.children ∨ x = newId := by
  split at hx
  · split at hx
    · split at hx
      · rcases mem_jsSplice_iff.mp hx with h | h
        · exact Or.inl h
        · right; simpa using h
      · rcases List.mem_append.mp hx with h | h
        · exact Or.inl h
        · right; simpa using h
    · exact Or.inl hx
  · rcases List.mem_cons.mp hx with h | h
    · exact Or.inr h
    · exact Or.inl h

/-- An update keeps the root a key. -/
theorem rootkey_mset {m : ItemMap} {r k : String} (h : (mget m r).isSome = true)
    (v : Item) : (mget (mset m k v) r).isSome = true := by
  rw [mget_isSome_iff] at h ⊢
  exact mem_mkeys_mset h v

/-- An update whose value does not reference the root keeps every children
list free of the root. -/
theorem rootfree_mset {m : ItemMap} {r k : String} {v : Item}
    (h : ∀ p ∈ m, r ∉ p.2.children) (hv : r ∉ v.children) :
    ∀ p ∈ mset m k v, r ∉ p.2.children := by
  intro p hp
  rcases mem_mset_elim hp with hp2 | hp2
  · exact h p hp2
  · rw [hp2]
    simpa using hv

/-- Deleting a key other than the root keeps the root a key. -/
theorem rootkey_mdel {m : ItemMap} {r k : String} (h : (mget m r).isSome = true)
    (hne : r ≠ k) : (mget (mdel m k) r).isSome = true := by
  rw [mget_isSome_iff] at h ⊢
  exact mem_mkeys_mdel h hne

/-- Deletions keep every children list free of the root. -/
theorem rootfree_mdel {m : ItemMap} {r k : String} (h : ∀ p ∈ m, r ∉ p.2.children) :
    ∀ p ∈ mdel m k, r ∉ p.2.children :=
  fun p hp => h p (mem_mdel_subset hp)

/-- The recursive delete never reaches the root when the root is in no
children list and not on the initial worklist. -/
theorem root_deleteRecursive {r : String} :
    ∀ (fuel : Nat) (m : ItemMap) (stack : List String),
      (mget m r).isSome = true → (∀ p ∈ m, r ∉ p.2.children) → r ∉ stack →
      (mget (deleteRecursive fuel m stack) r).isSome = true ∧
      (∀ p ∈ deleteRecursive fuel m stack, r ∉ p.2.children) := by
  intro fuel
  induction fuel with
  | zero =>
    intro m stack h1 h2 _
    cases stack <;> exact ⟨h1, h2⟩
  | succ fuel ih =>
    intro m stack h1 h2 h3
    cases stack with
    | nil => exact ⟨h1, h2⟩
    | cons c rest =>
      simp only [deleteRecursive]
      cases hg : mget m c with
      | none => exact ih m rest h1 h2 (fun hx => h3 (List.mem_cons_of_mem c hx))
      | some item =>
        have hcr : r ≠ c := fun hx => h3 (hx ▸ List.mem_cons_self c rest)
        apply ih
        · exact rootkey_mdel h1 hcr
        · exact rootfree_mdel h2
        · intro hx
          rcases List.mem_append.mp hx with hx2 | hx2
          · exact h2 (c, item) (mem_of_mget_eq_some hg) hx2
          · exact h3 (List.mem_cons_of_mem c hx2)

/-- One unlink step keeps the root a key and out of every children
list. -/
theorem root_unlink {m : ItemMap} {r : String} (t : String)
    (h1 : (mget m r).isSome = true) (h2 : ∀ p ∈ m, r ∉ p.2.children) :
    (mget (unlinkFromParent m t) r).isSome = true ∧
    (∀ p ∈ unlinkFromParent m t, r ∉ p.2.children) := by
  constructor
  · rw [mget_isSome_iff, mkeys_unlink]
    exact (mget_isSome_iff _ _).mp h1
  · intro p hp
    unfold unlinkFromParent at hp
    split at hp
    · exact h2 p hp
    · split at hp
      · exact h2 p hp
      · rename_i x1 pid hf x2 parent hg
        rcases mem_mset_elim hp with hmem | hmem
        · exact h2 p hmem
        · rw [hmem]
          intro hx
          exact h2 (pid, parent) (mem_of_mget_eq_some hg) (List.mem_filter.mp hx).1

/-- The unlink fold keeps the root a key and out of every children
list. -/
theorem root_foldl_unlink {r : String} : ∀ (ts : List String) (m : ItemMap),
    (mget m r).isSome = true → (∀ p ∈ m, r ∉ p.2.children) →
    (mget (ts.foldl unlinkFromParent m) r).isSome = true ∧
    (∀ p ∈ ts.foldl unlinkFromParent m, r ∉ p.2.children) := by
  intro ts
  induction ts with
  | nil => intro m h1 h2; exact ⟨h1, h2⟩
  | cons t ts ih =>
    intro m h1 h2
    simp only [List.foldl_cons]
    obtain ⟨g1, g2⟩ := root_unlink t h1 h2
    exact ih (unlinkFromParent m t) g1 g2

/-- MOVE_ITEMS keeps the root a key and out of every children list when
the root is not among the dragged ids. -/
theorem root_moveItemsHandler {s : WorkflowyState} {dragIds : List String}
    {targetId : String} {position : DropPosition} {s2 : WorkflowyState}
    (h1 : (mget s.items s.rootId).isSome = true)
    (h2 : ∀ p ∈ s.items, s.rootId ∉ p.2.children)
    (hroot : s.rootId ∉ dragIds)
    (hred : moveItemsHandler s dragIds targetId position = .ok s2) :
    s2.rootId = s.rootId ∧ (mget s2.items s2.rootId).isSome = true ∧
    (∀ p ∈ s2.items, s2.rootId ∉ p.2.children) := by
  simp only [moveItemsHandler] at hred
  set TL := dragIds.filter (fun id =>
    !(dragIds.any (fun otherId => otherId != id && isAncestor s.items otherId id))) with hTL
  set NI := List.foldl unlinkFromParent s.items TL with hNI
  have hTLroot : s.rootId ∉ TL := fun hx => hroot (List.mem_of_mem_filter hx)
  have hNIfacts : (mget NI s.rootId).isSome = true ∧
      (∀ p ∈ NI, s.rootId ∉ p.2.children) := by
    rw [hNI]
    exact root_foldl_unlink TL s.items h1 h2
  split at hred
  · cases hred
    exact ⟨rfl, h1, h2⟩
  · split at hred
    · cases hred
      exact ⟨rfl, h1, h2⟩
    · split at hred
      · split at hred
        · cases hred
        · rename_i target hmt
          cases hred
          refine ⟨rfl, rootkey_mset hNIfacts.1 _, rootfree_mset hNIfacts.2 ?_⟩
          intro hx
          rcases List.mem_append.mp hx with hx2 | hx2
          · exact hNIfacts.2 (targetId, target) (mem_of_mget_eq_some hmt) hx2
          · exact hTLroot hx2
      · split at hred
        · cases hred
          exact ⟨rfl, hNIfacts.1, hNIfacts.2⟩
        · rename_i tpid hfp
          split at hred
          · cases hred
            exact ⟨rfl, hNIfacts.1, hNIfacts.2⟩
          · rename_i targetParent hmtp
            have hfree : ∀ (st : Int),
                s.rootId ∉ jsSplice targetParent.children st 0 TL := by
              intro st hx
              rcases mem_jsSplice_iff.mp hx with hx2 | hx2
              · exact hNIfacts.2 (tpid, targetParent) (mem_of_mget_eq_some hmtp) hx2
              · exact hTLroot hx2
            split at hred
            · cases hred
              exact ⟨rfl, rootkey_mset hNIfacts.1 _, rootfree_mset hNIfacts.2 (hfree _)⟩
            · cases hred
              exact ⟨rfl, rootkey_mset hNIfacts.1 _, rootfree_mset hNIfacts.2 (hfree _)⟩

/-- A strictly positive JS indexOf means the searched id is in the
array. -/
theorem mem_of_jsIndexOf_pos {l : List String} {x : String}
    (h : 0 < jsIndexOf l x) : x ∈ l := by
  unfold jsIndexOf at h
  split at h
  · rename_i i hf
    exact mem_of_findIdx_some hf
  · omega

/-- C7, amended: every Mutation Engine table action that does not name the
root id as the item it creates, deletes, merges away, outdents or drags
keeps the root a key of the item map and keeps it out of every children
list. -/
theorem c7_amended_root_preserved (s : WorkflowyState) (a : Action) (s2 : WorkflowyState)
    (h1 : (mget s.items s.rootId).isSome = true)
    (h2 : ∀ p ∈ s.items, s.rootId ∉ p.2.children)
    (hstr : isStructural a = true)
    (hnr : namesRootId s.rootId a = false)
    (hred : reducer s a = .ok s2) :
    s2.rootId = s.rootId ∧ (mget s2.items s2.rootId).isSome = true ∧
    (∀ p ∈ s2.items, s2.rootId ∉ p.2.children) := by
  cases a with
  | LOAD_STATE st => simp [isStructural] at hstr
  | UNDO => simp [isStructural] at hstr
  | REDO => simp [isStructural] at hstr
  | ADD_ITEM afterId parentId newId =>
    simp only [namesRootId, beq_eq_false_iff_ne] at hnr
    simp only [reducer] at hred
    cases hm : mget s.items parentId with
    | none => rw [hm] at hred; cases hred; exact ⟨rfl, h1, h2⟩
    | some parent =>
      rw [hm] at hred
      cases hred
      refine ⟨rfl, rootkey_mset (rootkey_mset h1 _) _, ?_⟩
      refine rootfree_mset (rootfree_mset h2 (by simp)) ?_
      intro hx
      rcases mem_addChildren hx with hmem | hmem
      · exact h2 (parentId, parent) (mem_of_mget_eq_some hm) hmem
      · exact hnr hmem.symm
  | UPDATE_TEXT id text =>
    simp only [reducer] at hred
    cases hm : mget s.items id with
    | none => rw [hm] at hred; cases hred; exact ⟨rfl, h1, h2⟩
    | some item =>
      rw [hm] at hred
      cases hred
      exact ⟨rfl, rootkey_mset h1 _,
        rootfree_mset h2 (h2 (id, item) (mem_of_mget_eq_some hm))⟩
  | CHANGE_FONT_SIZE id size =>
    simp only [reducer] at hred
    cases hm : mget s.items id with
    | none => rw [hm] at hred; cases hred; exact ⟨rfl, h1, h2⟩
    | some item =>
      rw [hm] at hred
      cases hred
      exact ⟨rfl, rootkey_mset h1 _,
        rootfree_mset h2 (h2 (id, item) (mem_of_mget_eq_some hm))⟩
  | TOGGLE_COLLAPSE id =>
    simp only [reducer] at hred
    cases hm : mget s.items id with
    | none => rw [hm] at hred; cases hred
    | some item =>
      rw [hm] at hred
      cases hred
      exact ⟨rfl, rootkey_mset h1 _,
        rootfree_mset h2 (h2 (id, item) (mem_of_mget_eq_some hm))⟩
  | DELETE id parentId =>
    simp only [namesRootId, beq_eq_false_iff_ne] at hnr
    simp only [reducer] at hred
    cases hm : mget s.items parentId with
    | none => rw [hm] at hred; cases hred; exact ⟨rfl, h1, h2⟩
    | some parent =>
      rw [hm] at hred
      cases hred
      have hw1 : (mget (mset s.items parentId
          { parent with children := (parent.children.filter (fun childId => childId != id)) }) s.rootId).isSome = true :=
        rootkey_mset h1 _
      have hw2 : ∀ p ∈ mset s.items parentId
          { parent with children := (parent.children.filter (fun childId => childId != id)) }, s.rootId ∉ p.2.children := by
        refine rootfree_mset h2 ?_
        intro hx
        exact h2 (parentId, parent) (mem_of_mget_eq_some hm) (List.mem_filter.mp hx).1
      have hstack : s.rootId ∉ [id] := by
        intro hx
        exact hnr (List.mem_singleton.mp hx).symm
      obtain ⟨g1, g2⟩ := root_deleteRecursive _ _ _ hw1 hw2 hstack
      exact ⟨rfl, g1, g2⟩
  | MERGE_UP id parentId previousItemId =>
    simp only [namesRootId, beq_eq_false_iff_ne] at hnr
    have hrne : s.rootId ≠ id := fun hx => hnr hx.symm
    simp only [reducer] at hred
    split at hred
    · rename_i u v w item prevItem parent hid hprev hpar
      split at hred
      · cases hred
        refine ⟨rfl, rootkey_mdel (rootkey_mset h1 _) hrne,
          rootfree_mdel (rootfree_mset h2 ?_)⟩
        intro hx
        rcases mem_jsSplice_subset hx with hx2 | hx2
        · exact h2 (parentId, parent) (mem_of_mget_eq_some hpar) hx2
        · exact h2 (id, item) (mem_of_mget_eq_some hid) hx2
      · cases hred
        refine ⟨rfl, rootkey_mdel (rootkey_mset (rootkey_mset h1 _) _) hrne,
          rootfree_mdel (rootfree_mset (rootfree_mset h2 ?_) ?_)⟩
        · intro hx
          exact h2 (parentId, parent) (mem_of_mget_eq_some hpar) (List.mem_filter.mp hx).1
        · intro hx
          rcases List.mem_append.mp hx with hx2 | hx2
          · exact h2 (previousItemId, prevItem) (mem_of_mget_eq_some hprev) hx2
          · exact h2 (id, item) (mem_of_mget_eq_some hid) hx2
    · cases hred
      exact ⟨rfl, h1, h2⟩
  | INDENT id parentId =>
    simp only [reducer] at hred
    split at hred
    · cases hred; exact ⟨rfl, h1, h2⟩
    · rename_i u parent hm
      split at hred
      · cases hred; exact ⟨rfl, h1, h2⟩
      · rename_i hidx
        split at hred
        · cases hred
        · rename_i v prevSibling hprev
          cases hred
          have hidmem : id ∈ parent.children := mem_of_jsIndexOf_pos (by omega)
          have hidne : id ≠ s.rootId := fun hx =>
            h2 (parentId, parent) (mem_of_mget_eq_some hm) (hx ▸ hidmem)
          refine ⟨rfl, rootkey_mset (rootkey_mset h1 _) _,
            rootfree_mset (rootfree_mset h2 ?_) ?_⟩
          · intro hx
            exact h2 (parentId, parent) (mem_of_mget_eq_some hm) (List.mem_filter.mp hx).1
          · intro hx
            rcases List.mem_append.mp hx with hx2 | hx2
            · exact h2 _ (mem_of_mget_eq_some hprev) hx2
            · exact hidne (List.mem_singleton.mp hx2).symm
  | OUTDENT id parentId =>
    simp only [namesRootId, beq_eq_false_iff_ne] at hnr
    simp only [reducer] at hred
    split at hred
    · cases hred; exact ⟨rfl, h1, h2⟩
    · rename_i u grandParentId hf
      split at hred
      · rename_i a b grandParent parent hg hp
        cases hred
        refine ⟨rfl, rootkey_mset (rootkey_mset h1 _) _,
          rootfree_mset (rootfree_mset h2 ?_) ?_⟩
        · intro hx
          exact h2 (parentId, parent) (mem_of_mget_eq_some hp) (List.mem_filter.mp hx).1
        · intro hx
          rcases mem_jsSplice_iff.mp hx with hx2 | hx2
          · exact h2 (grandParentId, grandParent) (mem_of_mget_eq_some hg) hx2
          · exact hnr (List.mem_singleton.mp hx2).symm
      · cases hred
  | MOVE dragId targetId position =>
    simp only [namesRootId, beq_eq_false_iff_ne] at hnr
    simp only [reducer] at hred
    have hroot : s.rootId ∉ [dragId] := fun hx => hnr (List.mem_singleton.mp hx).symm
    exact root_moveItemsHandler h1 h2 hroot hred
  | MOVE_ITEMS dragIds targetId position =>
    simp only [namesRootId] at hnr
    simp only [reducer] at hred
    have hroot : s.rootId ∉ dragIds := by
      intro hx
      have hc : dragIds.contains s.rootId = true := contains_eq_true_of_mem hx
      rw [hc] at hnr
      exact Bool.noConfusion hnr
    exact root_moveItemsHandler h1 h2 hroot hred

/-- Witness for the amended root-preservation theorem: deleting the leaf A
from the two-leaf fixture store keeps the root a key out of every children
list. -/
theorem c7_witness :
    (mget twoLeafStore.items twoLeafStore.rootId).isSome = true ∧
    isStructural c7Act = true ∧
    namesRootId twoLeafStore.rootId c7Act = false ∧
    c7Fixture.rootId = twoLeafStore.rootId ∧
    (mget c7Fixture.items c7Fixture.rootId).isSome = true ∧
    (∀ p ∈ c7Fixture.items, c7Fixture.rootId ∉ p.2.children) := by
  refine ⟨by decide, by decide, by decide, ?_, ?_, ?_⟩
  all_goals
    have h := c7_amended_root_preserved twoLeafStore c7Act c7Fixture
      (by decide) (by decide) (by decide) (by decide) rfl
  · exact h.1
  · exact h.2.1
  · exact h.2.2

end Bulletpoints
